import Mathlib

/-!
# static-ranges: a verification development

A shallow embedding of the `static_ranges` library (compile-time sized,
heterogeneous ranges, lazy views over them and the bulk operators).

Conventions of the embedding.

* A range type of arity `n` has one element type per index, `Ts : Fin n → Type`;
  an index is a `Fin n`, so the bounds assertion of `element<I>` is part of the type.
* Everything that can run user code or touch memory is a state-passing computation
  `StateM W α` over a world `W`: the caller's named ranges and whatever the functors
  capture by reference. Constructing views and closures runs no such code: the objects
  built are given by plain functions (`pipe`, `stages.apply`), and the evaluation of a
  construction in the caller's world by `run`, `pipe_run` and `stages.build`.
* Where the language leaves the order of evaluation of function arguments open
  (`std::make_pair`, `std::make_tuple`), the order is a parameter.
* The accessor `range_traits<Range>::get<I>` has three overloads (`const Range&`,
  `Range&`, `Range&&`). They return a reference that is then read, assigned to or
  moved from; the embedding gives these three uses as `get`, `set` and `take`.
* Moving out of an object leaves it in the state `movable.moved_from`.
-/

namespace static_ranges

/-! ## Values and memory -/

/-- The state in which an object of type `T` is left after it has been the source of a
move construction or move assignment. Scalars are copied, so they keep their value. -/
class movable (T : Type) where
  moved_from : T → T

instance movable_int : movable Int := ⟨fun x => x⟩

instance movable_nat : movable Nat := ⟨fun x => x⟩

instance movable_bool : movable Bool := ⟨fun x => x⟩

instance movable_double : movable Float := ⟨fun x => x⟩

/-- A moved-from `std::string` is empty in the common standard libraries. -/
instance movable_string : movable String := ⟨fun _ => ""⟩

/-- The world outside the object at hand: `heap` holds the caller's named ranges of
type `R` by address, `env` is what the functors capture by reference (counters, logs). -/
structure World (R σ : Type) where
  heap : Nat → R
  env : σ

/-! ## range_traits.hpp -/

/-- The protocol descriptor `range_traits<Range>`: `n` is `range_traits<Range>::value`
and `Ts I` the element type at index `I`. `get I r` reads the element that
`get<I>(r)` refers to, `set I x r` assigns `x` through the reference returned by
`get<I>(Range&)`, and `take I r` moves out of what `get<I>(Range&&)` returns, giving
the value and the range it leaves behind. -/
class range_traits (W : Type) (Range : Type) (n : outParam Nat)
    (Ts : outParam (Fin n → Type)) where
  get : (I : Fin n) → Range → StateM W (Ts I)
  set : (I : Fin n) → Ts I → Range → StateM W Range
  take : (I : Fin n) → Range → StateM W (Ts I × Range)

/-- A `std::tuple<Ts...>` held by value; `get I` is `std::get<I>`. A `std::pair` is the
case `n = 2` and a `std::array<T, N>` the case of a constant `Ts`. -/
structure tuple (n : Nat) (Ts : Fin n → Type) where
  get : (I : Fin n) → Ts I

/-- The type `std::array<T, N>`. -/
abbrev array (T : Type) (N : Nat) : Type := tuple N (fun _ => T)

instance movable_tuple {n : Nat} {Ts : Fin n → Type} [∀ I, movable (Ts I)] :
    movable (tuple n Ts) :=
  ⟨fun t => ⟨fun I => movable.moved_from (t.get I)⟩⟩

/-- The specialisation `range_traits<StdRange>` (anything with a `std::tuple_size`):
the three `get` overloads forward to `std::get<I>`. -/
instance tuple_traits {W : Type} {n : Nat} {Ts : Fin n → Type} [∀ I, movable (Ts I)] :
    range_traits W (tuple n Ts) n Ts where
  get I t := pure (t.get I)
  set I x t := pure ⟨Function.update t.get I x⟩
  take I t := pure (t.get I, ⟨Function.update t.get I (movable.moved_from (t.get I))⟩)

/-- A named range of type `Range` in the caller's memory: what an lvalue `Range&`
denotes. -/
structure lvalue (Range : Type) where
  addr : Nat

/-- Access to a named range goes to the object stored at its address. -/
instance lvalue_traits {R σ : Type} {n : Nat} {Ts : Fin n → Type}
    [range_traits (World R σ) R n Ts] : range_traits (World R σ) (lvalue R) n Ts where
  get I r := fun w => range_traits.get I (w.heap r.addr) w
  set I x r := fun w =>
    let o := range_traits.set I x (w.heap r.addr) w
    (r, { o.2 with heap := Function.update o.2.heap r.addr o.1 })
  take I r := fun w =>
    let o := range_traits.take I (w.heap r.addr) w
    ((o.1.1, r), { o.2 with heap := Function.update o.2.heap r.addr o.1.2 })

/-! ## convenience.hpp -/

/-- The arity `size_v<Range>`, that is `range_traits<Range>::value`. -/
def size_v (W : Type) (Range : Type) {n : Nat} {Ts : Fin n → Type}
    [range_traits W Range n Ts] : Nat := n

/-- The index sequence `make_sequence<Range>`: 0, 1, ..., `size_v<Range> - 1`. -/
def make_sequence (W : Type) (Range : Type) {n : Nat} {Ts : Fin n → Type}
    [range_traits W Range n Ts] : List (Fin n) := List.finRange n

/-- Reading `element<I>(t)`. The index is below the arity by its type (the
`static_assert` "Index out of bounds."). -/
def element {W Range : Type} {n : Nat} {Ts : Fin n → Type} [range_traits W Range n Ts]
    (I : Fin n) (t : Range) : StateM W (Ts I) :=
  range_traits.get I t

/-- The assignment `element<I>(t) = x`. -/
def element_assign {W Range : Type} {n : Nat} {Ts : Fin n → Type}
    [range_traits W Range n Ts] (I : Fin n) (x : Ts I) (t : Range) : StateM W Range :=
  range_traits.set I x t

/-- Consuming `element<I>(std::move(t))`. -/
def element_move {W Range : Type} {n : Nat} {Ts : Fin n → Type}
    [range_traits W Range n Ts] (I : Fin n) (t : Range) : StateM W (Ts I × Range) :=
  range_traits.take I t

/-- The access `element<I>(t)` for an index `I` written as a number: the assertion
`static_assert(I < size_v<Range>, "Index out of bounds.")` rejects the index at build
time, otherwise the result is `element` at the index. -/
def element_at {W Range : Type} {n : Nat} {Ts : Fin n → Type} [range_traits W Range n Ts]
    (I : Nat) (t : Range) : Except String ((J : Fin n) × StateM W (Ts J)) :=
  if h : I < size_v W Range then .ok ⟨⟨I, h⟩, element ⟨I, h⟩ t⟩
  else .error "Index out of bounds."

/-! ## view_objects.hpp -/

namespace views

/-- The reference view `view_obj<Range>`: `m_data` is a `std::reference_wrapper` of the
range it was built from. -/
structure view_obj (Range : Type) where
  m_data : lvalue Range

/-- The owning view `view_obj_iota<Range>`: `m_data` is the range itself. -/
structure view_obj_iota (Range : Type) where
  m_data : Range

/-- The lazy view `transform_view_object<View, Func>`. -/
structure transform_view_object (View Func : Type) where
  m_view : View
  m_func : Func

end views

/-- A type that derives from `view_base` (the marker the `view` concept looks for). -/
class view_base (V : Type) : Prop where
  derived : True

/-- The concept `range_but_not_view`: a range type that does not derive from `view_base`. -/
class range_but_not_view (R : Type) : Prop where
  not_derived : True

instance tuple_is_not_view {n : Nat} {Ts : Fin n → Type} : range_but_not_view (tuple n Ts) :=
  ⟨trivial⟩

instance view_obj_is_view {R : Type} : view_base (views.view_obj R) := ⟨trivial⟩

instance view_obj_iota_is_view {R : Type} : view_base (views.view_obj_iota R) := ⟨trivial⟩

/-- A transform view derives from `view_base` (and from `transformable`). -/
instance transform_is_view {V F : Type} : view_base (views.transform_view_object V F) :=
  ⟨trivial⟩

/-- Moving a reference wrapper copies it. -/
instance movable_view_obj {R : Type} : movable (views.view_obj R) := ⟨fun v => v⟩

instance movable_view_obj_iota {R : Type} [movable R] : movable (views.view_obj_iota R) :=
  ⟨fun v => ⟨movable.moved_from v.m_data⟩⟩

/-- The implicit move constructor moves both members. -/
instance movable_transform {V F : Type} [movable V] [movable F] :
    movable (views.transform_view_object V F) :=
  ⟨fun v => ⟨movable.moved_from v.m_view, movable.moved_from v.m_func⟩⟩

/-- The specialisation `range_traits<View<Range>>` at `view_obj`: `t.m_data` converts
to `Range&` whatever the value category of `t`, so that `get<I>(Range&)` is chosen and
nothing is ever moved out through a reference view. -/
instance view_obj_traits {R σ : Type} {n : Nat} {Ts : Fin n → Type}
    [range_traits (World R σ) R n Ts] : range_traits (World R σ) (views.view_obj R) n Ts where
  get I t := range_traits.get I t.m_data
  set I x t := fun w => (t, (range_traits.set I x t.m_data w).2)
  take I t := fun w => (((range_traits.get I t.m_data w).1, t), (range_traits.get I t.m_data w).2)

/-- The specialisation `range_traits<View<Range>>` at `view_obj_iota`: every overload
forwards to the accessor of the stored range. -/
instance view_obj_iota_traits {W R : Type} {n : Nat} {Ts : Fin n → Type}
    [range_traits W R n Ts] : range_traits W (views.view_obj_iota R) n Ts where
  get I t := range_traits.get I t.m_data
  set I x t := fun w => (⟨(range_traits.set I x t.m_data w).1⟩, (range_traits.set I x t.m_data w).2)
  take I t := fun w =>
    let o := range_traits.take I t.m_data w
    ((o.1.1, ⟨o.1.2⟩), o.2)

/-! ## views.hpp -/

/-- A callable `Func` applied to the elements of a range with element types `Ts`. The
argument is bound to a forwarding reference: `call f I x` gives the result together with
the value the callee leaves in its argument. -/
class invocable (W : Type) (Func : Type) {n : Nat} (Ts : Fin n → Type)
    (Us : outParam (Fin n → Type)) where
  call : Func → (I : Fin n) → Ts I → StateM W (Us I × Ts I)

/-- The function `get_lazily<I>(v)` on a `transformable` view that is not an rvalue:
resolve index `I` of the inner view, then apply this level's function to the result. The
inner call is `get_lazily<I>(v.m_view)` again when the inner view is transformable and
`element<I>(v.m_view)` when it is not; both are the accessor of the inner view. The inner
result is returned by value, so what `m_func` does to its argument is dropped. -/
def get_lazily {W View Func : Type} {n : Nat} {Ts Us : Fin n → Type}
    [range_traits W View n Ts] [invocable W Func Ts Us]
    (I : Fin n) (v : views.transform_view_object View Func) : StateM W (Us I) := do
  let x ← range_traits.get I v.m_view
  let y ← invocable.call v.m_func I x
  pure y.1

/-- The function `get_lazily<I>(std::move(v))`: the inner view is forwarded as an rvalue
as well, so the inner element is moved out of it. -/
def get_lazily_rvalue {W View Func : Type} {n : Nat} {Ts Us : Fin n → Type}
    [range_traits W View n Ts] [invocable W Func Ts Us]
    (I : Fin n) (v : views.transform_view_object View Func) :
    StateM W (Us I × views.transform_view_object View Func) := do
  let x ← range_traits.take I v.m_view
  let y ← invocable.call v.m_func I x.1
  pure (y.1, ⟨x.2, v.m_func⟩)

/-- The specialisation `range_traits<transform_view_object<View, Func>>`: the arity is
the one of `View` and every `get` overload is `get_lazily`. The element is a prvalue, so
an assignment to it writes to a temporary and leaves the view as it was. -/
instance transform_traits {W View Func : Type} {n : Nat} {Ts Us : Fin n → Type}
    [range_traits W View n Ts] [invocable W Func Ts Us] :
    range_traits W (views.transform_view_object View Func) n Us where
  get I t := get_lazily I t
  set _ _ t := pure t
  take I t := get_lazily_rvalue I t

namespace views

/-- The two overloads of `views::all`. `all t` is the view returned; `left t` is what the
argument is left as once the returned rvalue has been moved into another object. -/
class has_all (Range : Type) (View : outParam Type) where
  all : Range → View
  left : Range → Range

/-- The overload for a view: `return std::move(t)`. -/
instance all_view {V : Type} [view_base V] [movable V] : has_all V V where
  all t := t
  left t := movable.moved_from t

/-- The overload for a range that is not a view: `return view_obj(t)`. -/
instance all_range {R : Type} [range_but_not_view R] : has_all (lvalue R) (view_obj R) where
  all t := ⟨t⟩
  left t := t

/-- The function `views::all`. -/
def all {Range View : Type} [has_all Range View] (t : Range) : View := has_all.all t

/-- The closure `range_adaptor_closure<Func>`. -/
structure range_adaptor_closure (Func : Type) where
  m_func : Func

/-- The outcome of applying a closure: the view returned, and what the closure and the
range operand are left as. -/
structure applied (View Func Range : Type) where
  view : View
  closure : range_adaptor_closure Func
  range : Range

/-- The call operator `range_adaptor_closure::operator()(r)`:
`transform_view_object(all(r), std::move(m_func))`. -/
def range_adaptor_closure.call {Func Range View : Type} [has_all Range View] [movable Func]
    (c : range_adaptor_closure Func) (r : Range) :
    applied (transform_view_object View Func) Func Range :=
  { view := ⟨all r, c.m_func⟩
    closure := ⟨movable.moved_from c.m_func⟩
    range := has_all.left r }

/-- The operator `r | c`, which is `c(r)`. -/
def pipe {Func Range View : Type} [has_all Range View] [movable Func]
    (r : Range) (c : range_adaptor_closure Func) :
    applied (transform_view_object View Func) Func Range :=
  c.call r

/-- The function `views::transform(f)` for a temporary `f`: `Func` is deduced as the
type of the function and the closure holds the function itself, moved in. (For a named
`f` the closure holds a reference to it, see `pipe_named`.) -/
def transform {Func : Type} (f : Func) : range_adaptor_closure Func := ⟨f⟩

/-- The application `r | transform(f)` (also `transform(f)(r)` and `transform(r, f)`) for
a named functor `f`, an lvalue. `Func` is deduced as `F&`, so that the member `m_func` of
the closure `range_adaptor_closure<F&>` is a reference to the caller's `f`, and
`std::move(m_func)` in the call operator moves the function out of `f` itself. The state
of this computation is the caller's `f`: the view is built from its value, and it is left
moved from, for whatever is applied next. -/
def pipe_named {Func Range View : Type} [has_all Range View] [movable Func] (r : Range) :
    StateM Func (applied (transform_view_object View Func) Func Range) :=
  fun f => (pipe r (transform f), (pipe r (transform f)).closure.m_func)

/-- The evaluation of `c(r)` in the caller's world: the call operator evaluates `all(r)`
and `std::move(m_func)` and hands them to the constructor of `transform_view_object`,
which stores them. The function `m_func` is not called. -/
def range_adaptor_closure.run {W Func Range View : Type} [has_all Range View] [movable Func]
    (c : range_adaptor_closure Func) (r : Range) :
    StateM W (applied (transform_view_object View Func) Func Range) := do
  let view ← pure (all r)
  let func ← pure c.m_func
  pure { view := ⟨view, func⟩
         closure := ⟨movable.moved_from c.m_func⟩
         range := has_all.left r }

/-- The evaluation of `r | c` in the caller's world: it is the evaluation of `c(r)`. -/
def pipe_run {W Func Range View : Type} [has_all Range View] [movable Func]
    (r : Range) (c : range_adaptor_closure Func) :
    StateM W (applied (transform_view_object View Func) Func Range) :=
  c.run r

/-- The evaluation of `views::transform(f)` in the caller's world: the constructor of the
closure stores `f`. -/
def transform_run {W Func : Type} (f : Func) : StateM W (range_adaptor_closure Func) :=
  pure ⟨f⟩

end views

/-- A function object without state (a captureless generic lambda): one function per
index, which does not touch its argument. -/
structure fn {n : Nat} (Ts Us : Fin n → Type) where
  f : (I : Fin n) → Ts I → Us I

instance fn_invocable {W : Type} {n : Nat} {Ts Us : Fin n → Type} :
    invocable W (fn Ts Us) Ts Us where
  call g I x := pure (g.f I x, x)

instance movable_fn {n : Nat} {Ts Us : Fin n → Type} : movable (fn Ts Us) := ⟨fun g => g⟩

/-- The lambda `[f, g](auto&& x) { return g(f(x)); }`, which holds copies of `f` and
`g`. -/
structure composed (F G : Type) where
  f : F
  g : G

instance composed_invocable {W F G : Type} {n : Nat} {Ts Us Vs : Fin n → Type}
    [invocable W F Ts Us] [invocable W G Us Vs] : invocable W (composed F G) Ts Vs where
  call h I x := do
    let y ← invocable.call h.f I x
    let z ← invocable.call h.g I y.1
    pure (z.1, y.2)

instance movable_composed {F G : Type} [movable F] [movable G] : movable (composed F G) :=
  ⟨fun h => ⟨movable.moved_from h.f, movable.moved_from h.g⟩⟩

/-- Reading through `all(r)` is reading `r`: a view is returned as it is, and a reference
view forwards to the range it refers to. -/
class all_proxies (W R V : Type) {n : Nat} {Ts : Fin n → Type} [range_traits W R n Ts]
    [range_traits W V n Ts] [views.has_all R V] : Prop where
  get_all : ∀ (I : Fin n) (r : R),
    @range_traits.get W V n Ts _ I (views.has_all.all r) = range_traits.get I r

instance all_view_proxies {W V : Type} {n : Nat} {Ts : Fin n → Type} [range_traits W V n Ts]
    [view_base V] [movable V] : all_proxies W V V :=
  ⟨fun _ _ => rfl⟩

instance all_range_proxies {R σ : Type} {n : Nat} {Ts : Fin n → Type}
    [range_traits (World R σ) R n Ts] [range_but_not_view R] :
    all_proxies (World R σ) (lvalue R) (views.view_obj R) :=
  ⟨fun _ _ => rfl⟩

/-! ## std.hpp and the iota view -/

/-- An integral type (`std::is_integral_v<T>`): `bool`, or an unsigned or signed integer
type of the given width in bits. -/
inductive integral where
  | bool : integral
  | unsigned (bits : Nat) : integral
  | signed (bits : Nat) : integral
deriving DecidableEq

/-- The value of the cast `(T)i` of an index `i` (a `std::size_t`): nonzero is `true` for
`bool`, otherwise `i` modulo 2^bits, read in two's complement for a signed type. -/
def integral.cast : integral → Nat → Int
  | .bool, i => if i = 0 then 0 else 1
  | .unsigned b, i => ((i % 2 ^ b : Nat) : Int)
  | .signed b, i =>
      if i % 2 ^ b < 2 ^ (b - 1) then ((i % 2 ^ b : Nat) : Int)
      else ((i % 2 ^ b : Nat) : Int) - ((2 ^ b : Nat) : Int)

/-- The largest value of the type, `std::numeric_limits<T>::max()`. -/
def integral.max : integral → Nat
  | .bool => 1
  | .unsigned b => 2 ^ b - 1
  | .signed b => 2 ^ (b - 1) - 1

/-- An object of the integral type `T`, by its value. -/
structure integer (T : integral) where
  value : Int
deriving DecidableEq

instance movable_integer {T : integral} : movable (integer T) := ⟨fun x => x⟩

/-- The helper `to_array_impl<T, std::make_index_sequence<N>>::call_iota()`:
`std::to_array({ ((T)Is)... })`. With an empty pack `std::to_array({})` cannot deduce its
element type, so that the call does not build for `N = 0`. -/
def to_array_impl.call_iota (T : integral) (N : Nat) : Option (array (integer T) N) :=
  if N = 0 then none else some ⟨fun I => ⟨T.cast I⟩⟩

namespace views

/-- The function `views::iota<T, N>()`: `view_obj_iota(call_iota())`. -/
def iota (T : integral) (N : Nat) : Option (view_obj_iota (array (integer T) N)) :=
  (to_array_impl.call_iota T N).map view_obj_iota.mk

end views

/-! ## Ranges that behave as containers -/

/-- A range that stores its elements in itself (a built-in container, or an owning view
of one): `element<I>` is a reference to its own `I`-th slot, so that accesses neither
depend on nor change anything outside the object, a slot holds what was last assigned to
it, and assigning to or moving from one slot leaves the others alone. -/
class owning_range (W Range : Type) {n : Nat} {Ts : Fin n → Type}
    [range_traits W Range n Ts] : Prop where
  get_world : ∀ (I : Fin n) (r : Range) (w : W), (range_traits.get I r w).2 = w
  get_indep : ∀ (I : Fin n) (r : Range) (w w' : W),
    (range_traits.get I r w).1 = (range_traits.get I r w').1
  set_world : ∀ (I : Fin n) (x : Ts I) (r : Range) (w : W), (range_traits.set I x r w).2 = w
  set_indep : ∀ (I : Fin n) (x : Ts I) (r : Range) (w w' : W),
    (range_traits.set I x r w).1 = (range_traits.set I x r w').1
  get_set : ∀ (I : Fin n) (x : Ts I) (r : Range) (w : W),
    (range_traits.get I (range_traits.set I x r w).1 w).1 = x
  get_set_ne : ∀ (I J : Fin n) (x : Ts I) (r : Range) (w : W), J ≠ I →
    (range_traits.get J (range_traits.set I x r w).1 w).1 = (range_traits.get J r w).1
  take_world : ∀ (I : Fin n) (r : Range) (w : W), (range_traits.take I r w).2 = w
  take_val : ∀ (I : Fin n) (r : Range) (w : W),
    (range_traits.take I r w).1.1 = (range_traits.get I r w).1
  take_ne : ∀ (I J : Fin n) (r : Range) (w : W), J ≠ I →
    (range_traits.get J (range_traits.take I r w).1.2 w).1 = (range_traits.get J r w).1

/-- A range that can be read from: reading element `I` changes nothing, and moving
element `I` out gives the value read and leaves the other elements as they were. -/
class source_range (W Range : Type) {n : Nat} {Ts : Fin n → Type}
    [range_traits W Range n Ts] : Prop where
  get_world : ∀ (I : Fin n) (r : Range) (w : W), (range_traits.get I r w).2 = w
  take_val : ∀ (I : Fin n) (r : Range) (w : W),
    (range_traits.take I r w).1.1 = (range_traits.get I r w).1
  take_ne : ∀ (I J : Fin n) (r : Range) (w : W), J ≠ I →
    (range_traits.get J (range_traits.take I r w).1.2 (range_traits.take I r w).2).1
      = (range_traits.get J r w).1

instance tuple_owning {W : Type} {n : Nat} {Ts : Fin n → Type} [∀ I, movable (Ts I)] :
    owning_range W (tuple n Ts) where
  get_world _ _ _ := rfl
  get_indep _ _ _ _ := rfl
  set_world _ _ _ _ := rfl
  set_indep _ _ _ _ _ := rfl
  get_set I x r _ := Function.update_same I x r.get
  get_set_ne _ _ x r _ h := Function.update_noteq h x r.get
  take_world _ _ _ := rfl
  take_val _ _ _ := rfl
  take_ne _ _ r _ h := Function.update_noteq h _ r.get

instance view_obj_iota_owning {W R : Type} {n : Nat} {Ts : Fin n → Type}
    [range_traits W R n Ts] [owning_range W R] : owning_range W (views.view_obj_iota R) where
  get_world I r w := owning_range.get_world I r.m_data w
  get_indep I r w w' := owning_range.get_indep I r.m_data w w'
  set_world I x r w := owning_range.set_world I x r.m_data w
  set_indep I x r w w' :=
    congrArg views.view_obj_iota.mk (owning_range.set_indep I x r.m_data w w')
  get_set I x r w := owning_range.get_set I x r.m_data w
  get_set_ne I J x r w h := owning_range.get_set_ne I J x r.m_data w h
  take_world I r w := owning_range.take_world I r.m_data w
  take_val I r w := owning_range.take_val I r.m_data w
  take_ne I J r w h := owning_range.take_ne I J r.m_data w h

instance owning_source {W R : Type} {n : Nat} {Ts : Fin n → Type} [range_traits W R n Ts]
    [owning_range W R] : source_range W R where
  get_world := owning_range.get_world
  take_val := owning_range.take_val
  take_ne I J r w h := by
    rw [owning_range.take_world I r w]
    exact owning_range.take_ne I J r w h

instance lvalue_source {R σ : Type} {n : Nat} {Ts : Fin n → Type}
    [range_traits (World R σ) R n Ts] [owning_range (World R σ) R] :
    source_range (World R σ) (lvalue R) where
  get_world I r w := owning_range.get_world I (w.heap r.addr) w
  take_val I r w := owning_range.take_val I (w.heap r.addr) w
  take_ne I J r w h := by
    show (@range_traits.get (World R σ) R n Ts _ J
        (Function.update (range_traits.take I (w.heap r.addr) w).2.heap r.addr
          (range_traits.take I (w.heap r.addr) w).1.2 r.addr) _).1
      = (@range_traits.get (World R σ) R n Ts _ J (w.heap r.addr) w).1
    rw [Function.update_same, owning_range.get_indep J _ _ w]
    exact owning_range.take_ne I J (w.heap r.addr) w h

instance view_obj_source {R σ : Type} {n : Nat} {Ts : Fin n → Type}
    [range_traits (World R σ) R n Ts] [owning_range (World R σ) R] :
    source_range (World R σ) (views.view_obj R) where
  get_world I r w := owning_range.get_world I (w.heap r.m_data.addr) w
  take_val _ _ _ := rfl
  take_ne I J r w _ := by
    show (@range_traits.get (World R σ) R n Ts _ J
        ((@range_traits.get (World R σ) R n Ts _ I (w.heap r.m_data.addr) w).2.heap r.m_data.addr)
        (@range_traits.get (World R σ) R n Ts _ I (w.heap r.m_data.addr) w).2).1
      = (@range_traits.get (World R σ) R n Ts _ J (w.heap r.m_data.addr) w).1
    rw [owning_range.get_world I (w.heap r.m_data.addr) w]

instance transform_source {W V : Type} {n : Nat} {Ts Us : Fin n → Type}
    [range_traits W V n Ts] [source_range W V] :
    source_range W (views.transform_view_object V (fn Ts Us)) where
  get_world I r w := by
    show (range_traits.get I r.m_view w).2 = w
    exact source_range.get_world I r.m_view w
  take_val I r w := by
    show r.m_func.f I (range_traits.take I r.m_view w).1.1
      = r.m_func.f I (range_traits.get I r.m_view w).1
    rw [source_range.take_val I r.m_view w]
  take_ne I J r w h := by
    show r.m_func.f J (range_traits.get J (range_traits.take I r.m_view w).1.2
        (range_traits.take I r.m_view w).2).1
      = r.m_func.f J (range_traits.get J r.m_view w).1
    rw [source_range.take_ne I J r.m_view w h]

/-- A range whose accesses neither depend on nor change anything outside the object, and
where an assignment through `element<I>` leaves the other elements alone: a container,
or a chain of stateless transforms over one (an assignment to its element writes to a
temporary). -/
class stable_range (W Range : Type) {n : Nat} {Ts : Fin n → Type}
    [range_traits W Range n Ts] : Prop where
  get_world : ∀ (I : Fin n) (r : Range) (w : W), (range_traits.get I r w).2 = w
  get_indep : ∀ (I : Fin n) (r : Range) (w w' : W),
    (range_traits.get I r w).1 = (range_traits.get I r w').1
  set_world : ∀ (I : Fin n) (x : Ts I) (r : Range) (w : W), (range_traits.set I x r w).2 = w
  get_set_ne : ∀ (I J : Fin n) (x : Ts I) (r : Range) (w : W), J ≠ I →
    (range_traits.get J (range_traits.set I x r w).1 w).1 = (range_traits.get J r w).1

instance owning_stable {W R : Type} {n : Nat} {Ts : Fin n → Type} [range_traits W R n Ts]
    [owning_range W R] : stable_range W R where
  get_world := owning_range.get_world
  get_indep := owning_range.get_indep
  set_world := owning_range.set_world
  get_set_ne := owning_range.get_set_ne

instance transform_stable {W V : Type} {n : Nat} {Ts Us : Fin n → Type}
    [range_traits W V n Ts] [stable_range W V] :
    stable_range W (views.transform_view_object V (fn Ts Us)) where
  get_world I r w := by
    show (range_traits.get I r.m_view w).2 = w
    exact stable_range.get_world I r.m_view w
  get_indep I r w w' := by
    show r.m_func.f I (range_traits.get I r.m_view w).1
      = r.m_func.f I (range_traits.get I r.m_view w').1
    rw [stable_range.get_indep I r.m_view w w']
  set_world _ _ _ _ := rfl
  get_set_ne _ _ _ _ _ _ := rfl

/-! ## Chains of any number of stages -/

namespace views

/-- The closures of a chain `v | c1 | c2 | ... | ck`, first stage innermost. The stage
functions may be of different types; `Ts` are the element types the first stage reads
and the second index the element types the last stage produces. -/
inductive stages (W : Type) {n : Nat} (Ts : Fin n → Type) : (Fin n → Type) → Type 1
  | nil : stages W Ts Ts
  | snoc {Us Vs : Fin n → Type} (s : stages W Ts Us) (Func : Type)
      [invocable W Func Us Vs] [movable Func] (c : range_adaptor_closure Func) :
      stages W Ts Vs

/-- The number of stages. -/
def stages.length {W : Type} {n : Nat} {Ts Us : Fin n → Type} : stages W Ts Us → Nat
  | .nil => 0
  | @stages.snoc _ _ _ _ _ s _ _ _ _ => s.length + 1

/-- The type of the view `v | c1 | ... | ck` for `v : V`. -/
def stages.view_t {W : Type} {n : Nat} {Ts Us : Fin n → Type} :
    stages W Ts Us → Type → Type
  | .nil, V => V
  | @stages.snoc _ _ _ _ _ s Func _ _ _, V => transform_view_object (s.view_t V) Func

/-- The descriptor of the chain's type: `transform_traits` at every stage. -/
def stages.traits {W : Type} {n : Nat} {Ts Us : Fin n → Type} (V : Type)
    [range_traits W V n Ts] : (s : stages W Ts Us) → range_traits W (s.view_t V) n Us
  | .nil => (inferInstance : range_traits W V n Ts)
  | @stages.snoc _ _ _ _ _ s Func _ _ _ =>
      @transform_traits W (s.view_t V) Func n _ _ (s.traits V) _

/-- The move constructor of the chain's type. -/
def stages.view_movable {W : Type} {n : Nat} {Ts Us : Fin n → Type} (V : Type)
    [static_ranges.movable V] : (s : stages W Ts Us) → static_ranges.movable (s.view_t V)
  | .nil => (inferInstance : static_ranges.movable V)
  | @stages.snoc _ _ _ _ _ s Func _ _ _ =>
      @movable_transform (s.view_t V) Func (s.view_movable V) _

/-- The chain's type derives from `view_base`. -/
instance stages.is_view {W : Type} {n : Nat} {Ts Us : Fin n → Type} (V : Type)
    [view_base V] : (s : stages W Ts Us) → view_base (s.view_t V)
  | .nil => (inferInstance : view_base V)
  | @stages.snoc _ _ _ _ _ s Func _ _ _ =>
      (inferInstance : view_base (transform_view_object (s.view_t V) Func))

/-- The view `v | c1 | ... | ck`, built with `pipe` stage by stage. -/
def stages.apply {W : Type} {n : Nat} {Ts Us : Fin n → Type} {V : Type} [view_base V]
    [static_ranges.movable V] : (s : stages W Ts Us) → V → s.view_t V
  | .nil, v => v
  | @stages.snoc _ _ _ _ _ s Func _ _ c, v =>
      (@pipe Func (s.view_t V) (s.view_t V)
        (@all_view (s.view_t V) (s.is_view V) (s.view_movable V)) _ (s.apply v) c).view

/-- The evaluation of `v | transform(f1) | ... | transform(fk)` in the caller's world,
stage by stage: each closure is made by `transform` and applied by the operator. -/
def stages.build {W : Type} {n : Nat} {Ts Us : Fin n → Type} {V : Type} [view_base V]
    [static_ranges.movable V] : (s : stages W Ts Us) → V → StateM W (s.view_t V)
  | .nil, v => pure v
  | @stages.snoc _ _ _ _ _ s Func _ _ c, v => do
      let inner ← s.build v
      let c1 ← transform_run c.m_func
      let a ← @pipe_run W Func (s.view_t V) (s.view_t V)
        (@all_view (s.view_t V) (s.is_view V) (s.view_movable V)) _ inner c1
      pure a.view

/-- Reading element `I` of the chain `v | c1 | ... | ck`. -/
def stages.element {W : Type} {n : Nat} {Ts Us : Fin n → Type} {V : Type} [view_base V]
    [static_ranges.movable V] [range_traits W V n Ts] (s : stages W Ts Us) (I : Fin n)
    (v : V) : StateM W (Us I) :=
  @static_ranges.element W (s.view_t V) n Us (s.traits V) I (s.apply v)

/-- The composition the specification gives for a chain: `fk(... f2(f1(x)) ...)`, the
innermost (first applied) stage first, each stage on the previous stage's output. -/
def stages.compose {W : Type} {n : Nat} {Ts Us : Fin n → Type} :
    (s : stages W Ts Us) → (I : Fin n) → Ts I → StateM W (Us I)
  | .nil, _, x => pure x
  | @stages.snoc _ _ _ _ _ s _ _ _ c, I, x => do
      let a ← s.compose I x
      let b ← invocable.call c.m_func I a
      pure b.1

/-- Every stage function of the chain is an invocation-counting function for the counter
`cnt`: each call of it adds one to the counter. -/
def stages.counted {W : Type} {n : Nat} {Ts Us : Fin n → Type} (cnt : W → Nat) :
    stages W Ts Us → Prop
  | .nil => True
  | @stages.snoc _ _ _ Xs _ s _ _ _ c =>
      s.counted cnt ∧ ∀ (I : Fin n) (x : Xs I) (w : W),
        cnt (invocable.call c.m_func I x w).2 = cnt w + 1

/-- The values of `k` successive accesses to element `I` of the chain
`v | c1 | ... | ck`. -/
def stages.access {W : Type} {n : Nat} {Ts Us : Fin n → Type} {V : Type} [view_base V]
    [static_ranges.movable V] [range_traits W V n Ts] (s : stages W Ts Us) (I : Fin n)
    (v : V) : Nat → StateM W (List (Us I))
  | 0 => pure []
  | k + 1 => do
      let x ← s.element I v
      let xs ← s.access I v k
      pure (x :: xs)

/-- Every stage function of the chain is pure and counted on its own: a call of the
stage at position `j` adds one to the counter `cnt j` and leaves the other counters and
the part `mem` of the world (what the base view reads) alone, and its result depends
on its argument only. -/
def stages.pure_counted {W M : Type} {n : Nat} {Ts Us : Fin n → Type}
    (cnt : Nat → W → Nat) (mem : W → M) : stages W Ts Us → Prop
  | .nil => True
  | @stages.snoc _ _ _ Xs _ s _ _ _ c =>
      s.pure_counted cnt mem ∧ ∀ (I : Fin n) (x : Xs I) (w : W),
        cnt s.length (invocable.call c.m_func I x w).2 = cnt s.length w + 1
          ∧ (∀ j : Nat, j ≠ s.length → cnt j (invocable.call c.m_func I x w).2 = cnt j w)
          ∧ mem (invocable.call c.m_func I x w).2 = mem w
          ∧ ∀ u : W, (invocable.call c.m_func I x u).1.1 = (invocable.call c.m_func I x w).1.1

/-- Consuming element `I` of the chain `v | c1 | ... | ck` held as a temporary:
`element<I>(std::move(chain))`. -/
def stages.element_move {W : Type} {n : Nat} {Ts Us : Fin n → Type} {V : Type} [view_base V]
    [static_ranges.movable V] [range_traits W V n Ts] (s : stages W Ts Us) (I : Fin n)
    (v : V) : StateM W (Us I × s.view_t V) :=
  @static_ranges.element_move W (s.view_t V) n Us (s.traits V) I (s.apply v)

/-- No stage function of the chain writes to the part `mem` of the world by itself
(through something it has captured). What a stage does to its argument, and to the rest
of the world, is left open. -/
def stages.keeps {W M : Type} {n : Nat} {Ts Us : Fin n → Type} (mem : W → M) :
    stages W Ts Us → Prop
  | .nil => True
  | @stages.snoc _ _ _ Xs _ s _ _ _ c =>
      s.keeps mem ∧ ∀ (I : Fin n) (x : Xs I) (w : W),
        mem (invocable.call c.m_func I x w).2 = mem w

end views

/-- The arity of the type of `t`, `size_v<decltype(t)>`. -/
def size_of (W : Type) {Range : Type} {n : Nat} {Ts : Fin n → Type}
    [range_traits W Range n Ts] (_ : Range) : Nat := size_v W Range

/-! ## helpers.hpp -/

/-- The assignment `b = a` of a value of type `A` to an object of type `B`
(`std::is_assignable_v<B&, A>`): `assign a` is the value the object holds afterwards. -/
class assignable (A B : Type) where
  assign : A → B

/-- An object is assigned a value of its own type as it is. -/
instance assignable_self {T : Type} : assignable T T := ⟨fun x => x⟩

/-- The recursion `copy_impl<std::index_sequence<I, Is...>>::assign`: move-assign element
`I` of the source (always taken from `std::move(r1)`) to element `I` of the destination,
then go on with `Is`. The assertion asks that each element of the source can be assigned
to the element of the destination; the element types of the two ranges may differ. The
result is what the two ranges are left as. -/
def copy_impl.assign {W RangeSrc RangeDest : Type} {n : Nat} {Ts Us : Fin n → Type}
    [range_traits W RangeSrc n Ts] [range_traits W RangeDest n Us]
    [∀ I, assignable (Ts I) (Us I)] :
    List (Fin n) → RangeSrc → RangeDest → StateM W (RangeSrc × RangeDest)
  | [], r1, r2 => pure (r1, r2)
  | I :: Is, r1, r2 => do
      let x ← element_move I r1
      let r2 ← element_assign I (assignable.assign x.1) r2
      copy_impl.assign Is x.2 r2

/-- The function `copy(r1, r2)` for two ranges of one arity. -/
def copy {W RangeSrc RangeDest : Type} {n : Nat} {Ts Us : Fin n → Type}
    [range_traits W RangeSrc n Ts] [range_traits W RangeDest n Us]
    [∀ I, assignable (Ts I) (Us I)]
    (r1 : RangeSrc) (r2 : RangeDest) : StateM W (RangeSrc × RangeDest) :=
  copy_impl.assign (make_sequence W RangeSrc) r1 r2

/-- The fold `(f(element<I>(r)), ...)` of `for_each_impl::call`, left to right: `f` gets
element `I` by reference, so what it leaves in its argument is the new element. -/
def for_each_impl.call {W Range Func : Type} {n : Nat} {Ts Us : Fin n → Type}
    [range_traits W Range n Ts] [invocable W Func Ts Us] :
    List (Fin n) → Range → Func → StateM W Range
  | [], r, _ => pure r
  | I :: Is, r, f => do
      let x ← element I r
      let y ← invocable.call f I x
      let r ← element_assign I y.2 r
      for_each_impl.call Is r f

/-- The function `for_each(r, f)`; the result is what `r` is left as. -/
def for_each {W Range Func : Type} {n : Nat} {Ts Us : Fin n → Type}
    [range_traits W Range n Ts] [invocable W Func Ts Us] (r : Range) (f : Func) :
    StateM W Range :=
  for_each_impl.call (make_sequence W Range) r f

/-- The recursion `transform_impl<std::index_sequence<I, Is...>>::call_two`:
`element<I>(r2) = f(element<I>(r1))`, then go on with `Is`. Here `f` is a function of the
element's value (it takes its argument by value or by reference to const). -/
def transform_impl.call_two {W Range1 Range2 : Type} {n : Nat} {Ts Us : Fin n → Type}
    [range_traits W Range1 n Ts] [range_traits W Range2 n Us] :
    List (Fin n) → Range1 → Range2 → ((I : Fin n) → Ts I → StateM W (Us I)) →
      StateM W Range2
  | [], _, r2, _ => pure r2
  | I :: Is, r1, r2, f => do
      let x ← element I r1
      let y ← f I x
      let r2 ← element_assign I y r2
      transform_impl.call_two Is r1 r2 f

/-- The function `transform(r1, r2, f)` with one source. -/
def transform {W RangeSrc RangeDest : Type} {n : Nat} {Ts Us : Fin n → Type}
    [range_traits W RangeSrc n Ts] [range_traits W RangeDest n Us]
    (r1 : RangeSrc) (r2 : RangeDest) (f : (I : Fin n) → Ts I → StateM W (Us I)) :
    StateM W RangeDest :=
  transform_impl.call_two (make_sequence W RangeSrc) r1 r2 f

/-- The type `std::integral_constant<T, v>`: an empty object whose value `v` is part of
its type (`decltype(e)::value`). -/
structure integral_constant (T : integral) (v : Int) : Type

/-- The member `e.value` of an `std::integral_constant<T, v>` object. -/
def integral_constant.value {T : integral} {v : Int} (_ : integral_constant T v) : Int := v

instance movable_integral_constant {T : integral} {v : Int} :
    movable (integral_constant T v) := ⟨fun x => x⟩

/-- The helper `to_tuple_impl<std::make_index_sequence<N>>::call_static_iota<T>()`:
`std::make_tuple((std::integral_constant<T, Is>())...)`. Each index `Is` (a
`std::size_t`) is a template argument for a parameter of type `T`, where a narrowing
conversion is not allowed: the call builds only when every index below `N` is at most
the largest value of `T`. -/
def to_tuple_impl.call_static_iota (T : integral) (N : Nat) :
    Option (tuple N (fun I => integral_constant T (I.val : Int))) :=
  if N ≤ T.max + 1 then some ⟨fun _ => ⟨⟩⟩ else none

namespace views

/-- The function `views::static_iota<T, N>()`: `view_obj_iota(call_static_iota<T>())`. -/
def static_iota (T : integral) (N : Nat) :
    Option (view_obj_iota (tuple N (fun I => integral_constant T (I.val : Int)))) :=
  (to_tuple_impl.call_static_iota T N).map view_obj_iota.mk

end views

/-- The element types of a `std::pair<A, B>`. -/
def pair_t (A B : Type) : Fin 2 → Type
  | ⟨0, _⟩ => A
  | ⟨1, _⟩ => B

/-- The type `std::pair<A, B>`: the container of arity 2 with the slots `first` and
`second`. -/
abbrev pair (A B : Type) : Type := tuple 2 (pair_t A B)

/-- The function `std::make_pair(a, b)`. -/
def make_pair {A B : Type} (a : A) (b : B) : pair A B :=
  ⟨fun I => match I with
    | ⟨0, _⟩ => a
    | ⟨1, _⟩ => b⟩

instance movable_pair_t {A B : Type} [movable A] [movable B] : ∀ I, movable (pair_t A B I)
  | ⟨0, _⟩ => (inferInstance : movable A)
  | ⟨1, _⟩ => (inferInstance : movable B)

/-- The order in which an implementation evaluates the two arguments of a function call.
The language leaves it open. -/
inductive evaluation_order where
  | left_to_right : evaluation_order
  | right_to_left : evaluation_order
deriving DecidableEq

/-- The function `to_pair(r)` for an lvalue `r`. The constraint
`requires(range_nocvref<Range>::value == 2)` rejects every other arity at build time
(`none`); for arity 2 the result is `std::make_pair(element<0>(r), element<1>(r))`, a
pair of copies of the two elements, whose types come with it. The two arguments are
evaluated in the order `o` of the implementation. -/
def to_pair {W Range : Type} {n : Nat} {Ts : Fin n → Type} [inst : range_traits W Range n Ts]
    (o : evaluation_order) (r : Range) :
    Option ((A : Type) × (B : Type) × StateM W (pair A B)) :=
  match n, Ts, inst with
  | 2, Ts, inst =>
      some ⟨Ts 0, Ts 1,
        match o with
        | .left_to_right => do
            let a ← @element W Range 2 Ts inst 0 r
            let b ← @element W Range 2 Ts inst 1 r
            pure (make_pair a b)
        | .right_to_left => do
            let b ← @element W Range 2 Ts inst 1 r
            let a ← @element W Range 2 Ts inst 0 r
            pure (make_pair a b)⟩
  | _, _, _ => none

/-- The state after the reads `element<I>(r)` for the indices of the list, one after the
other. -/
def element_reads {W Range : Type} {n : Nat} {Ts : Fin n → Type} [range_traits W Range n Ts]
    (r : Range) : List (Fin n) → W → W
  | [], w => w
  | I :: Is, w => element_reads r Is (element I r w).2

/-- The range and the state after `element<I>(std::move(r))` has been consumed for the
indices of the list, one after the other. -/
def element_moves {W Range : Type} {n : Nat} {Ts : Fin n → Type} [range_traits W Range n Ts] :
    List (Fin n) → Range → W → Range × W
  | [], r, w => (r, w)
  | I :: Is, r, w => element_moves Is (element_move I r w).1.2 (element_move I r w).2

/-- The helper `to_tuple_impl<std::index_sequence<Is...>>::call(r)` for an lvalue `r`:
`std::make_tuple(element<Is>(r)...)`. Component `I` is a copy of what the argument
`element<I>(r)` evaluates to. The language leaves the order in which the arguments are
evaluated open: `order` is the one the implementation takes, the indices in the order of
their evaluation, and the argument at `I` is read in the state the reads that come
before it in `order` have left. -/
def to_tuple_impl.call {W Range : Type} {n : Nat} {Ts : Fin n → Type}
    [range_traits W Range n Ts] (order : List (Fin n)) (r : Range) : StateM W (tuple n Ts) :=
  fun w =>
    (⟨fun I =>
        (element I r (element_reads r (order.takeWhile (fun J => decide (J ≠ I))) w)).1⟩,
      element_reads r order w)

/-- The helper `to_tuple_impl::call(std::move(r))`: every argument is
`element<Is>(std::move(r))`, so that component `I` is moved out of `r`, in the order
`order` of the implementation. The result is the tuple and what `r` is left as. -/
def to_tuple_impl.call_rvalue {W Range : Type} {n : Nat} {Ts : Fin n → Type}
    [range_traits W Range n Ts] (order : List (Fin n)) (r : Range) :
    StateM W (tuple n Ts × Range) := fun w =>
  ((⟨fun I =>
      (element_move I
        (element_moves (order.takeWhile (fun J => decide (J ≠ I))) r w).1
        (element_moves (order.takeWhile (fun J => decide (J ≠ I))) r w).2).1.1⟩,
    (element_moves order r w).1),
    (element_moves order r w).2)

/-- The function `to_tuple(r)` for an lvalue `r`: a `std::tuple` of copies of the
elements, the arguments of `std::make_tuple` evaluated in the order `order`. -/
def to_tuple {W Range : Type} {n : Nat} {Ts : Fin n → Type} [range_traits W Range n Ts]
    (order : List (Fin n)) (r : Range) : StateM W (tuple n Ts) :=
  to_tuple_impl.call order r

/-- The function `to_tuple(std::move(r))`, also `to_tuple` of a temporary. -/
def to_tuple_rvalue {W Range : Type} {n : Nat} {Ts : Fin n → Type} [range_traits W Range n Ts]
    (order : List (Fin n)) (r : Range) : StateM W (tuple n Ts × Range) :=
  to_tuple_impl.call_rvalue order r

/-- An implicit conversion from `A` to `T` that the braces of an aggregate initialization
admit (a copy-initialization that does not narrow); `convert` is its value. -/
class convertible (A T : Type) where
  convert : A → T

/-- An object initialises an object of its own type. -/
instance convertible_self {T : Type} : convertible T T := ⟨fun x => x⟩

/-- The concept `is_copy_constructible_impl<T, Range, I>`: `T(element<I>(r))` is defined.
A conversion the braces admit can also be written as such a cast. -/
def is_copy_constructible_impl (A T : Type) [convertible A T] : Bool := true

/-- The trait `is_copy_constructible_arr<T, Range, std::index_sequence<Is...>>::value`.
There is a specialisation for one index and one for two or more indices, and none for the
empty sequence, where the trait has no value. -/
def is_copy_constructible_arr {n : Nat} (Ts : Fin n → Type) (T : Type)
    [∀ I, convertible (Ts I) T] : List (Fin n) → Option Bool
  | [] => none
  | [I] => some (is_copy_constructible_impl (Ts I) T)
  | I1 :: I2 :: Is =>
      (is_copy_constructible_arr Ts T (I2 :: Is)).map
        (fun b => is_copy_constructible_impl (Ts I1) T && b)

/-- The helper `to_array_impl<T, std::index_sequence<Is...>>::call_to(r)` for an lvalue
`r`. The assertion needs `is_copy_constructible_arr<...>::value` to exist and be true,
else the call does not build. The result is `{ { element<Is>(r)... } }`: the clauses of a
braced list are evaluated in index order, and entry `I` of the `std::array<T, n>` is
initialised from `element<I>(r)`, converted to `T`. -/
def to_array_impl.call_to {W Range : Type} {n : Nat} {Ts : Fin n → Type}
    [range_traits W Range n Ts] (T : Type) [∀ I, convertible (Ts I) T] (r : Range) :
    Option (StateM W (array T n)) :=
  match is_copy_constructible_arr Ts T (make_sequence W Range) with
  | some true =>
      some (fun w =>
        (⟨fun I => convertible.convert
            (element I r
              (element_reads r ((make_sequence W Range).filter (fun J => J < I)) w)).1⟩,
          element_reads r (make_sequence W Range) w))
  | _ => none

/-- The helper `to_array_impl::call_to(std::move(r))`: entry `I` is initialised from
`element<I>(std::move(r))`, that is from an element moved out of `r`. The result is the
array and what `r` is left as. -/
def to_array_impl.call_to_rvalue {W Range : Type} {n : Nat} {Ts : Fin n → Type}
    [range_traits W Range n Ts] (T : Type) [∀ I, convertible (Ts I) T] (r : Range) :
    Option (StateM W (array T n × Range)) :=
  match is_copy_constructible_arr Ts T (make_sequence W Range) with
  | some true =>
      some (fun w =>
        ((⟨fun I => convertible.convert
            (element_move I
              (element_moves ((make_sequence W Range).filter (fun J => J < I)) r w).1
              (element_moves ((make_sequence W Range).filter (fun J => J < I)) r w).2).1.1⟩,
          (element_moves (make_sequence W Range) r w).1),
          (element_moves (make_sequence W Range) r w).2))
  | _ => none

/-- The function `to_array<T>(r)` for an lvalue `r`. -/
def to_array {W Range : Type} {n : Nat} {Ts : Fin n → Type} [range_traits W Range n Ts]
    (T : Type) [∀ I, convertible (Ts I) T] (r : Range) : Option (StateM W (array T n)) :=
  to_array_impl.call_to T r

/-- The function `to_array<T>(std::move(r))`, also `to_array<T>` of a temporary. -/
def to_array_rvalue {W Range : Type} {n : Nat} {Ts : Fin n → Type} [range_traits W Range n Ts]
    (T : Type) [∀ I, convertible (Ts I) T] (r : Range) :
    Option (StateM W (array T n × Range)) :=
  to_array_impl.call_to_rvalue T r

/-! ## Sample data -/

namespace sample

/-- Two strings. -/
abbrev strings : Fin 2 → Type := fun _ => String

/-- The stage `[](auto&& v) { return v + suffix; }` with a fixed suffix. -/
def append (suffix : String) : fn strings strings := ⟨fun _ x => x ++ suffix⟩

/-- A memory with the pair `{"x", "y"}` at every address. -/
def memory : World (tuple 2 strings) Unit :=
  { heap := fun _ => ⟨fun I => if I = 0 then "x" else "y"⟩, env := () }

/-- The named range at address 0. -/
def r : lvalue (tuple 2 strings) := ⟨0⟩

/-- The element types of `range_three`: `std::tuple<int, double, std::string>`. -/
def range_three_t : Fin 3 → Type := ![Int, Float, String]

instance movable_range_three : ∀ I, movable (range_three_t I)
  | ⟨0, _⟩ => movable_int
  | ⟨1, _⟩ => movable_double
  | ⟨2, _⟩ => movable_string

/-- The tuple `{a, b, c}`. -/
def range_three (a : Int) (b : Float) (c : String) : tuple 3 range_three_t :=
  ⟨fun I => match I with
    | ⟨0, _⟩ => a
    | ⟨1, _⟩ => b
    | ⟨2, _⟩ => c⟩

/-- A memory with `{42, 3.14, "Some_quite_large_string_containing_Foo_and_Bar"}` at every
address. -/
def memory_three : World (tuple 3 range_three_t) Unit :=
  { heap := fun _ => range_three 42 3.14 "Some_quite_large_string_containing_Foo_and_Bar"
    env := () }

/-- The named `range_three` at address 0. -/
def r3 : lvalue (tuple 3 range_three_t) := ⟨0⟩

/-- The functor `[](auto&& x, auto&& y) { return x + y; }` on `range_three`: integer
addition, floating-point addition and string concatenation. -/
def add : (I : Fin 3) → range_three_t I → range_three_t I → range_three_t I
  | ⟨0, _⟩ => fun (x y : Int) => x + y
  | ⟨1, _⟩ => fun (x y : Float) => x + y
  | ⟨2, _⟩ => fun (x y : String) => x ++ y

/-- The functor `[](auto&& x) { return x + x; }` on `range_three`. -/
def twice : (I : Fin 3) → range_three_t I → range_three_t I :=
  fun I x => add I x x

/-- The functor `[&log](auto&& x) { log.push_back(x); }` on `range_three`: it records
the argument of every call, with the index it was called for. -/
structure recorder : Type

instance recorder_invocable :
    invocable (List ((I : Fin 3) × range_three_t I)) recorder range_three_t (fun _ => Unit) where
  call _ I x := fun log => (((), x), log ++ [⟨I, x⟩])

/-- The functor `[](auto& x) { x = x + x; }` on `range_three`. -/
structure doubler : Type

instance doubler_invocable {W : Type} :
    invocable W doubler range_three_t (fun _ => Unit) where
  call _ I x := pure ((), twice I x)

/-- The same memory with an invocation counter, at zero. -/
def counter_memory : World (tuple 2 strings) Nat :=
  { heap := fun _ => ⟨fun I => if I = 0 then "x" else "y"⟩, env := 0 }

/-- The stage `[&count, suffix](auto&& v) { ++count; return v + suffix; }`. -/
structure counting where
  suffix : String

instance counting_invocable {R : Type} : invocable (World R Nat) counting strings strings where
  call g _ x := fun w => ((x ++ g.suffix, x), { w with env := w.env + 1 })

instance movable_counting : movable counting := ⟨fun g => ⟨movable.moved_from g.suffix⟩⟩

/-- Three counting stages. -/
def three_stages : views.stages (World (tuple 2 strings) Nat) strings strings :=
  .snoc (.snoc (.snoc .nil counting (views.transform ⟨"1"⟩)) counting (views.transform ⟨"2"⟩))
    counting (views.transform ⟨"3"⟩)

/-- A memory with the pair `{"x", "y"}` at every address and one invocation counter
for every stage, all at zero. -/
def tally_memory : World (tuple 2 strings) (Nat → Nat) :=
  { heap := fun _ => ⟨fun I => if I = 0 then "x" else "y"⟩, env := fun _ => 0 }

/-- The stage `[&counts, suffix](auto&& v) { ++counts[id]; return v + suffix; }`. -/
structure tally where
  id : Nat
  suffix : String

instance tally_invocable {R : Type} :
    invocable (World R (Nat → Nat)) tally strings strings where
  call g _ x := fun w =>
    ((x ++ g.suffix, x), { w with env := Function.update w.env g.id (w.env g.id + 1) })

instance movable_tally : movable tally := ⟨fun g => ⟨g.id, movable.moved_from g.suffix⟩⟩

/-- Three stages, each with a counter of its own. -/
def tally_stages : views.stages (World (tuple 2 strings) (Nat → Nat)) strings strings :=
  .snoc (.snoc (.snoc .nil tally (views.transform ⟨0, "1"⟩)) tally (views.transform ⟨1, "2"⟩))
    tally (views.transform ⟨2, "3"⟩)

/-- The stage `[suffix](auto&& v) { return v + suffix; }`: a function object that
carries a captured string. Moving it moves the string. -/
structure with_suffix where
  suffix : String

instance with_suffix_invocable {W : Type} : invocable W with_suffix strings strings where
  call g _ x := pure (x ++ g.suffix, x)

instance movable_with_suffix : movable with_suffix :=
  ⟨fun g => ⟨movable.moved_from g.suffix⟩⟩

/-- A second named range, at address 1. -/
def r2 : lvalue (tuple 2 strings) := ⟨1⟩


/-- The conversion of an `unsigned char` to `int`, which keeps the value. -/
instance unsigned_char_to_int :
    convertible (integer (integral.unsigned 8)) (integer (integral.signed 32)) :=
  ⟨fun x => ⟨x.value⟩⟩

/-- The pair `{7, 200}` of `unsigned char`. -/
def bytes : tuple 2 (fun _ => integer (integral.unsigned 8)) :=
  ⟨fun I => if I = 0 then ⟨7⟩ else ⟨200⟩⟩


/-- The stage `[suffix](auto&& v) { auto out = v + suffix; v.clear(); return out; }`: it
assigns to its argument. -/
structure clearing where
  suffix : String

instance clearing_invocable {W : Type} : invocable W clearing strings strings where
  call g _ x := pure (x ++ g.suffix, "")

instance movable_clearing : movable clearing := ⟨fun g => ⟨movable.moved_from g.suffix⟩⟩

/-- Two stages that assign to their argument. -/
def clearing_stages : views.stages (World (tuple 2 strings) Unit) strings strings :=
  .snoc (.snoc .nil clearing (views.transform ⟨"1"⟩)) clearing (views.transform ⟨"2"⟩)


/-- The named view `v = r | transform(f)`, where `f` appends its captured "!". -/
def v : views.transform_view_object (views.view_obj (tuple 2 strings)) with_suffix :=
  (views.pipe r (views.transform (with_suffix.mk "!"))).view


/-- The view `r | transform(f) | transform(f)` for one named functor `f`, evaluated in a
state that holds `f`. -/
def two_named : StateM with_suffix
    (views.transform_view_object
      (views.transform_view_object (views.view_obj (tuple 2 strings)) with_suffix)
      with_suffix) := do
  let a1 ← views.pipe_named r
  let a2 ← views.pipe_named a1.view
  pure a2.view

/-- The view `r | transform(f) | transform(f) | transform(f)` for one named functor `f`,
evaluated in a state that holds `f`. -/
def three_named : StateM with_suffix
    (views.transform_view_object
      (views.transform_view_object
        (views.transform_view_object (views.view_obj (tuple 2 strings)) with_suffix)
        with_suffix)
      with_suffix) := do
  let a2 ← two_named
  let a3 ← views.pipe_named a2
  pure a3.view

/-- The assignment of an `int` to an `unsigned char`, which keeps the value modulo 256. -/
instance int_to_unsigned_char :
    assignable (integer (integral.signed 32)) (integer (integral.unsigned 8)) :=
  ⟨fun x => ⟨x.value % 256⟩⟩

end sample

/-! ## Theorems -/


/-- One more stage: reading the chain `s | c` applies `c` to what reading `s` gives. -/
theorem stages_element_snoc {W : Type} {n : Nat} {Ts Us Vs : Fin n → Type} {V : Type}
    [view_base V] [movable V] [range_traits W V n Ts] (s : views.stages W Ts Us) (Func : Type)
    [invocable W Func Us Vs] [movable Func] (c : views.range_adaptor_closure Func) (I : Fin n)
    (v : V) (w : W) :
    (views.stages.snoc s Func c).element I v w
      = ((invocable.call c.m_func I (s.element I v w).1 (s.element I v w).2).1.1,
         (invocable.call c.m_func I (s.element I v w).1 (s.element I v w).2).2) :=
  rfl

/-- Reading a chain is the composition of its stages on the element of the base view. -/
theorem stages_element_eq_compose {W : Type} {n : Nat} {Ts Us : Fin n → Type} {V : Type}
    [view_base V] [movable V] [range_traits W V n Ts] (s : views.stages W Ts Us) (I : Fin n)
    (v : V) (w : W) :
    s.element I v w = s.compose I (element I v w).1 (element I v w).2 := by
  induction s with
  | nil => rfl
  | snoc s Func c ih =>
    rw [stages_element_snoc, ih]
    rfl

/-- The order of a chain whose closures hold their functions (made from temporaries): for
a range `r` and functions `f1`, `f2`, `f3`, element `I` of
`r | transform(f1) | transform(f2) | transform(f3)` is `f3(f2(f1(element<I>(r))))`; and
for a chain of any number of stages, element `I` is the composition of the stages on
`element<I>(r)`, the first applied stage innermost. -/
theorem transform_chain_order :
    (∀ (W R V : Type) (n : Nat) (Ts Us Vs Xs : Fin n → Type) [range_traits W R n Ts]
        [range_traits W V n Ts] [views.has_all R V] [view_base V] [movable V] [all_proxies W R V]
        (f1 : fn Ts Us) (f2 : fn Us Vs) (f3 : fn Vs Xs) (r : R) (I : Fin n) (w : W),
        element I
            (views.pipe (views.pipe (views.pipe r (views.transform f1)).view (views.transform f2)).view (views.transform f3)).view w
          = (f3.f I (f2.f I (f1.f I (element I r w).1)), (element I r w).2))
    ∧ (∀ (W R V : Type) (n : Nat) (Ts Us : Fin n → Type) [range_traits W R n Ts]
        [range_traits W V n Ts] [views.has_all R V] [view_base V] [movable V] [all_proxies W R V]
        (s : views.stages W Ts Us) (r : R) (I : Fin n) (w : W),
        s.element I (views.all r) w = s.compose I (element I r w).1 (element I r w).2) := by
  refine ⟨?_, ?_⟩
  · intro W R V n Ts Us Vs Xs _ _ _ _ _ hp f1 f2 f3 r I w
    have h : element I (views.all r : V) w = element I r w := congrFun (hp.get_all I r) w
    rw [← h]
    rfl
  · intro W R V n Ts Us _ _ _ _ _ hp s r I w
    have h : element I (views.all r : V) w = element I r w := congrFun (hp.get_all I r) w
    rw [stages_element_eq_compose, h]

/-- The order of a chain at string concatenation, which does not commute: the stages
append "1", "2", "3" in this order to the elements of the pair `{"x", "y"}`. -/
theorem transform_chain_order_witness :
    (element 1
        (views.pipe (views.pipe (views.pipe sample.r (views.transform (sample.append "1"))).view
          (views.transform (sample.append "2"))).view (views.transform (sample.append "3"))).view
        sample.memory).1 = "y123" := by
  rw [transform_chain_order.1 (World (tuple 2 sample.strings) Unit) (lvalue (tuple 2 sample.strings))
    (views.view_obj (tuple 2 sample.strings)) 2 sample.strings sample.strings sample.strings
    sample.strings (sample.append "1") (sample.append "2") (sample.append "3") sample.r 1
    sample.memory]
  decide

/-- One access to a chain of counted stages adds the number of stages to the counter. -/
theorem stages_element_count {W V : Type} {n : Nat} {Ts Us : Fin n → Type} [view_base V]
    [movable V] [range_traits W V n Ts] (cnt : W → Nat) (s : views.stages W Ts Us)
    (hs : s.counted cnt) (hbase : ∀ (I : Fin n) (v : V) (w : W), cnt (element I v w).2 = cnt w)
    (I : Fin n) (v : V) (w : W) : cnt (s.element I v w).2 = cnt w + s.length := by
  induction s with
  | nil => exact hbase I v w
  | snoc s Func c ih =>
    rw [stages_element_snoc]
    show cnt (invocable.call c.m_func I (s.element I v w).1 (s.element I v w).2).2 = _
    rw [hs.2, ih hs.1]
    rfl

/-- Evaluating the construction of a chain gives the view `v | c1 | ... | ck` and leaves
the world as it was. -/
theorem stages_build_eq {W V : Type} {n : Nat} {Ts Us : Fin n → Type} [view_base V]
    [movable V] (s : views.stages W Ts Us) (v : V) (w : W) : s.build v w = (s.apply v, w) := by
  induction s with
  | nil => rfl
  | snoc s Func c ih =>
    have e : (views.stages.snoc s Func c).build v w
        = ((@views.pipe Func (s.view_t V) (s.view_t V)
              (@views.all_view (s.view_t V) (s.is_view V) (s.view_movable V)) _
              (s.build v w).1 c).view, (s.build v w).2) := rfl
    rw [e, ih]
    rfl

/-- C2: building a transform chain invokes none of the stage functions. With
invocation-counting stage functions, evaluating `transform(f)`, a closure application
`c(r)` or `r | c` leaves the count as it was, and so does evaluating the construction of
a chain of any number of stages over `all(r)`; the count first changes when an element
of the view that was built is accessed, by one per stage. -/
theorem lazy_construction {W R V : Type} {n : Nat} {Ts Us : Fin n → Type} [views.has_all R V]
    [view_base V] [movable V] [range_traits W V n Ts] (cnt : W → Nat)
    (s : views.stages W Ts Us) (hs : s.counted cnt)
    (hbase : ∀ (I : Fin n) (v : V) (w : W), cnt (element I v w).2 = cnt w) (r : R) (w : W) :
    (∀ (Func : Type) [movable Func] (f : Func) (c : views.range_adaptor_closure Func),
        cnt (views.transform_run f w).2 = cnt w
          ∧ cnt (c.run r w).2 = cnt w
          ∧ cnt (views.pipe_run r c w).2 = cnt w)
      ∧ cnt (s.build (views.all r) w).2 = cnt w
      ∧ (s.build (views.all r) w).1 = s.apply (views.all r)
      ∧ ∀ I : Fin n,
          cnt (@element W (s.view_t V) n Us (s.traits V) I (s.build (views.all r) w).1
            (s.build (views.all r) w).2).2 = cnt w + s.length := by
  refine ⟨fun _ _ _ _ => ⟨rfl, rfl, rfl⟩, ?_, ?_, fun I => ?_⟩
  · rw [stages_build_eq]
  · rw [stages_build_eq]
  · rw [stages_build_eq]
    exact stages_element_count cnt s hs hbase I (views.all r) w

/-- C2 on three counting stages over the pair `{"x", "y"}`: the counter is 0 after the
construction and 3 after the first access to the view that was built. -/
theorem lazy_construction_witness :
    (sample.three_stages.build (views.all sample.r) sample.counter_memory).2.env = 0
      ∧ ∀ I : Fin 2,
          (@element (World (tuple 2 sample.strings) Nat) _ 2 sample.strings
            (sample.three_stages.traits (views.view_obj (tuple 2 sample.strings))) I
            (sample.three_stages.build (views.all sample.r) sample.counter_memory).1
            (sample.three_stages.build (views.all sample.r) sample.counter_memory).2).2.env = 3 :=
  ⟨(@lazy_construction (World (tuple 2 sample.strings) Nat) (lvalue (tuple 2 sample.strings))
      (views.view_obj (tuple 2 sample.strings)) 2 sample.strings sample.strings _ _ _ _
      (fun w => w.env) sample.three_stages
      ⟨⟨⟨trivial, fun _ _ _ => rfl⟩, fun _ _ _ => rfl⟩, fun _ _ _ => rfl⟩
      (fun _ _ _ => rfl) sample.r sample.counter_memory).2.1,
    (@lazy_construction (World (tuple 2 sample.strings) Nat) (lvalue (tuple 2 sample.strings))
      (views.view_obj (tuple 2 sample.strings)) 2 sample.strings sample.strings _ _ _ _
      (fun w => w.env) sample.three_stages
      ⟨⟨⟨trivial, fun _ _ _ => rfl⟩, fun _ _ _ => rfl⟩, fun _ _ _ => rfl⟩
      (fun _ _ _ => rfl) sample.r sample.counter_memory).2.2.2⟩

/-- C3: `all` is idempotent. A view is returned as it is; and for every range `r`,
`all(all(r))` is `all(r)`, with the same arity and the same element at every index. -/
theorem all_idempotent :
    (∀ (V : Type) [view_base V] [movable V] (v : V), views.all v = v)
    ∧ (∀ (W R V : Type) (n : Nat) (Ts : Fin n → Type) [range_traits W V n Ts]
        [views.has_all R V] [view_base V] [movable V] (r : R),
        views.all (views.all r) = (views.all r : V)
          ∧ size_of W (views.all (views.all r)) = size_of W (views.all r : V)
          ∧ ∀ (I : Fin n) (w : W),
              element I (views.all (views.all r)) w = element I (views.all r : V) w) :=
  ⟨fun _ _ _ _ => rfl, fun _ _ _ _ _ _ _ _ _ _ => ⟨rfl, rfl, fun _ _ => rfl⟩⟩

/-- C3 on the named pair `{"x", "y"}` and on its reference view: `all(all(r))` is the
reference view `all(r)`, and `all` of that view is the view. -/
theorem all_idempotent_witness :
    views.all (views.all sample.r) = (views.all sample.r : views.view_obj (tuple 2 sample.strings))
      ∧ views.all (views.view_obj.mk sample.r) = views.view_obj.mk sample.r :=
  ⟨(all_idempotent.2 (World (tuple 2 sample.strings) Unit) (lvalue (tuple 2 sample.strings))
      (views.view_obj (tuple 2 sample.strings)) 2 sample.strings sample.r).1,
    all_idempotent.1 (views.view_obj (tuple 2 sample.strings)) (views.view_obj.mk sample.r)⟩

/-- C4: write-through of a reference view. After `element<I>(all(r)) = x` for a named
container `r`, reading `element<I>(r)` directly gives `x`, and every other element of `r`
is what it was. -/
theorem reference_view_write_through {R σ : Type} {n : Nat} {Ts : Fin n → Type}
    [range_traits (World R σ) R n Ts] [owning_range (World R σ) R] [range_but_not_view R]
    (r : lvalue R) (I : Fin n) (x : Ts I) (w : World R σ) :
    (element I r (element_assign I x (views.all r) w).2).1 = x
      ∧ ∀ J : Fin n, J ≠ I →
          (element J r (element_assign I x (views.all r) w).2).1 = (element J r w).1 := by
  have hw : (element_assign I x (views.all r) w).2
      = { w with heap := Function.update w.heap r.addr (range_traits.set I x (w.heap r.addr) w).1 } := by
    show ({ (range_traits.set I x (w.heap r.addr) w).2 with
        heap := Function.update (range_traits.set I x (w.heap r.addr) w).2.heap r.addr
          (range_traits.set I x (w.heap r.addr) w).1 } : World R σ) = _
    rw [owning_range.set_world I x (w.heap r.addr) w]
  rw [hw]
  refine ⟨?_, fun J hJ => ?_⟩
  · show (range_traits.get I (Function.update w.heap r.addr
        (range_traits.set I x (w.heap r.addr) w).1 r.addr) _).1 = x
    rw [Function.update_same, owning_range.get_indep I _ _ w]
    exact owning_range.get_set I x (w.heap r.addr) w
  · show (range_traits.get J (Function.update w.heap r.addr
        (range_traits.set I x (w.heap r.addr) w).1 r.addr) _).1
        = (range_traits.get J (w.heap r.addr) w).1
    rw [Function.update_same, owning_range.get_indep J _ _ w]
    exact owning_range.get_set_ne I J x (w.heap r.addr) w hJ

/-- C4 on the example of `view_obj`: after `element<0>(all(r)) = 2` on
`r = {42, 3.14, "..."}`, `element<0>(r)` is 2 and the other two elements are unchanged. -/
theorem reference_view_write_through_witness :
    (element 0 sample.r3 (element_assign 0 (2 : Int) (views.all sample.r3) sample.memory_three).2).1
        = (2 : Int)
      ∧ ∀ J : Fin 3, J ≠ 0 →
          (element J sample.r3
              (element_assign 0 (2 : Int) (views.all sample.r3) sample.memory_three).2).1
            = (element J sample.r3 sample.memory_three).1 :=
  @reference_view_write_through (tuple 3 sample.range_three_t) Unit 3 sample.range_three_t _ _ _
    sample.r3 0 (2 : Int) sample.memory_three

/-- One step of `for_each_impl::call`. -/
theorem for_each_impl_call_cons {W Range Func : Type} {n : Nat} {Ts Us : Fin n → Type}
    [range_traits W Range n Ts] [invocable W Func Ts Us] (I : Fin n) (Is : List (Fin n))
    (r : Range) (f : Func) (w : W) :
    for_each_impl.call (I :: Is) r f w
      = for_each_impl.call Is
          (range_traits.set I
            (invocable.call f I (range_traits.get I r w).1 (range_traits.get I r w).2).1.2 r
            (invocable.call f I (range_traits.get I r w).1 (range_traits.get I r w).2).2).1
          f
          (range_traits.set I
            (invocable.call f I (range_traits.get I r w).1 (range_traits.get I r w).2).1.2 r
            (invocable.call f I (range_traits.get I r w).1 (range_traits.get I r w).2).2).2 :=
  rfl

/-- The calls `for_each_impl::call` makes over distinct indices, as a recording `f` sees
them: one per index of the sequence, in its order, each with the element the range had
at the start. -/
theorem for_each_impl_call_log {W Range Func : Type} {n : Nat} {Ts Us : Fin n → Type}
    [range_traits W Range n Ts] [stable_range W Range] [invocable W Func Ts Us]
    (log : W → List ((I : Fin n) × Ts I)) (f : Func)
    (hf : ∀ (I : Fin n) (x : Ts I) (w : W),
      log (invocable.call f I x w).2 = log w ++ [⟨I, x⟩])
    (is : List (Fin n)) (hnd : is.Nodup) (r : Range) (w : W) :
    log (for_each_impl.call is r f w).2
      = log w ++ is.map (fun I => ⟨I, (range_traits.get I r w).1⟩) := by
  induction is generalizing r w with
  | nil => exact (List.append_nil _).symm
  | cons I Is ih =>
    obtain ⟨hI, hIs⟩ := List.nodup_cons.mp hnd
    rw [for_each_impl_call_cons, ih hIs, stable_range.set_world, hf,
      stable_range.get_world I r w, List.map_cons, List.append_assoc, List.singleton_append]
    congr 2
    refine List.map_congr_left (fun J hJ => ?_)
    have hne : J ≠ I := fun e => hI (e ▸ hJ)
    rw [stable_range.get_set_ne I J _ r _ hne, stable_range.get_indep J r _ w]

/-- C8: `for_each(r, f)` invokes `f` once per index, in ascending index order, on the
elements of `r`: a function that records its calls has recorded, after the call, exactly
`(0, element<0>(r)), ..., (n-1, element<n-1>(r))` in this order, that is `n` calls. -/
theorem for_each_visits_in_order {W Range Func : Type} {n : Nat} {Ts Us : Fin n → Type}
    [range_traits W Range n Ts] [stable_range W Range] [invocable W Func Ts Us]
    (log : W → List ((I : Fin n) × Ts I)) (f : Func)
    (hf : ∀ (I : Fin n) (x : Ts I) (w : W),
      log (invocable.call f I x w).2 = log w ++ [⟨I, x⟩])
    (r : Range) (w : W) :
    log (for_each r f w).2
        = log w ++ (List.finRange n).map (fun I => ⟨I, (element I r w).1⟩)
      ∧ (log (for_each r f w).2).length = (log w).length + n := by
  have h : log (for_each r f w).2
      = log w ++ (List.finRange n).map (fun I => ⟨I, (element I r w).1⟩) :=
    for_each_impl_call_log log f hf (List.finRange n) (List.nodup_finRange n) r w
  refine ⟨h, ?_⟩
  rw [h, List.length_append, List.length_map, List.length_finRange]

/-- C8 on `r = {42, 3.14, "text"}` with a recording function: three calls, on 42, 3.14
and "text" in this order. -/
theorem for_each_visits_in_order_witness :
    (for_each (sample.range_three 42 3.14 "text") sample.recorder.mk
          ([] : List ((I : Fin 3) × sample.range_three_t I))).2
        = [⟨0, (42 : Int)⟩, ⟨1, (3.14 : Float)⟩, ⟨2, "text"⟩]
      ∧ ((for_each (sample.range_three 42 3.14 "text") sample.recorder.mk
          ([] : List ((I : Fin 3) × sample.range_three_t I))).2).length = 3 :=
  @for_each_visits_in_order (List ((I : Fin 3) × sample.range_three_t I))
    (tuple 3 sample.range_three_t) sample.recorder 3 sample.range_three_t (fun _ => Unit) _ _ _
    (fun w => w) sample.recorder.mk (fun _ _ _ => rfl)
    (sample.range_three 42 3.14 "text") []

/-- After `for_each_impl::call` over distinct indices with a function that leaves `g(x)`
in its argument `x`, the range holds `g` of its elements at these indices and its
elements at the others. -/
theorem for_each_impl_call_spec {W Range Func : Type} {n : Nat} {Ts Us : Fin n → Type}
    [range_traits W Range n Ts] [owning_range W Range] [invocable W Func Ts Us]
    (g : (I : Fin n) → Ts I → Ts I) (f : Func)
    (hf : ∀ (I : Fin n) (x : Ts I) (w : W), (invocable.call f I x w).1.2 = g I x)
    (is : List (Fin n)) (hnd : is.Nodup) (r : Range) (w u : W) :
    (∀ J ∈ is, (range_traits.get J (for_each_impl.call is r f w).1 u).1
        = g J (range_traits.get J r u).1)
    ∧ (∀ J ∉ is, (range_traits.get J (for_each_impl.call is r f w).1 u).1
        = (range_traits.get J r u).1) := by
  induction is generalizing r w with
  | nil => exact ⟨fun J hJ => absurd hJ (List.not_mem_nil J), fun _ _ => rfl⟩
  | cons I Is ih =>
    obtain ⟨hI, hIs⟩ := List.nodup_cons.mp hnd
    rw [for_each_impl_call_cons]
    obtain ⟨h1, h2⟩ := ih hIs
      (range_traits.set I
        (invocable.call f I (range_traits.get I r w).1 (range_traits.get I r w).2).1.2 r
        (invocable.call f I (range_traits.get I r w).1 (range_traits.get I r w).2).2).1
      (range_traits.set I
        (invocable.call f I (range_traits.get I r w).1 (range_traits.get I r w).2).1.2 r
        (invocable.call f I (range_traits.get I r w).1 (range_traits.get I r w).2).2).2
    refine ⟨fun J hJ => ?_, fun J hJ => ?_⟩
    · rcases List.mem_cons.mp hJ with rfl | hJ
      · rw [h2 J hI, owning_range.get_indep J _ u
            (invocable.call f J (range_traits.get J r w).1 (range_traits.get J r w).2).2,
          owning_range.get_set, hf, owning_range.get_indep J r w u]
      · have hne : J ≠ I := fun e => hI (e ▸ hJ)
        rw [h1 J hJ, owning_range.get_indep J _ u
            (invocable.call f I (range_traits.get I r w).1 (range_traits.get I r w).2).2,
          owning_range.get_set_ne I J _ r _ hne, owning_range.get_indep J r _ u]
    · have hne : J ≠ I := fun e => hJ (e ▸ List.mem_cons_self I Is)
      have hJs : J ∉ Is := fun e => hJ (List.mem_cons_of_mem I e)
      rw [h2 J hJs, owning_range.get_indep J _ u
          (invocable.call f I (range_traits.get I r w).1 (range_traits.get I r w).2).2,
        owning_range.get_set_ne I J _ r _ hne, owning_range.get_indep J r _ u]

/-- C9: `for_each` mutates in place. For a mutable range `r` and a function `f` that
replaces its argument `x` by `g(x)`, after `for_each(r, f)` element `I` of `r` is `g` of
the value it had before the call, for every index `I`. -/
theorem for_each_mutates_in_place {W Range Func : Type} {n : Nat} {Ts Us : Fin n → Type}
    [range_traits W Range n Ts] [owning_range W Range] [invocable W Func Ts Us]
    (g : (I : Fin n) → Ts I → Ts I) (f : Func)
    (hf : ∀ (I : Fin n) (x : Ts I) (w : W), (invocable.call f I x w).1.2 = g I x)
    (r : Range) (w : W) (I : Fin n) :
    (element I (for_each r f w).1 (for_each r f w).2).1 = g I (element I r w).1 := by
  have h := (for_each_impl_call_spec g f hf (List.finRange n) (List.nodup_finRange n) r w w).1 I
    (List.mem_finRange I)
  show (range_traits.get I (for_each_impl.call (List.finRange n) r f w).1 _).1 = _
  rw [owning_range.get_indep I _ _ w]
  exact h

/-- C9 on `r = {21, 3.14, "ab"}` and `f` doubling its argument in place: elements 0 and 2
become 42 and "abab". -/
theorem for_each_mutates_in_place_witness :
    (element 0 (for_each (sample.range_three 21 3.14 "ab") sample.doubler.mk ()).1
        (for_each (sample.range_three 21 3.14 "ab") sample.doubler.mk ()).2).1 = (42 : Int)
      ∧ (element 2 (for_each (sample.range_three 21 3.14 "ab") sample.doubler.mk ()).1
        (for_each (sample.range_three 21 3.14 "ab") sample.doubler.mk ()).2).1 = "abab" :=
  ⟨@for_each_mutates_in_place Unit (tuple 3 sample.range_three_t) sample.doubler 3
      sample.range_three_t (fun _ => Unit) _ _ _ sample.twice sample.doubler.mk
      (fun _ _ _ => rfl) (sample.range_three 21 3.14 "ab") () 0,
    @for_each_mutates_in_place Unit (tuple 3 sample.range_three_t) sample.doubler 3
      sample.range_three_t (fun _ => Unit) _ _ _ sample.twice sample.doubler.mk
      (fun _ _ _ => rfl) (sample.range_three 21 3.14 "ab") () 2⟩

/-- The cast of an index keeps its value when the index is at most the largest value of
the type. -/
theorem integral_cast_of_le_max (T : integral) (i : Nat) (h : i ≤ T.max) :
    T.cast i = (i : Int) := by
  cases T with
  | bool =>
    have h1 : i ≤ 1 := h
    rcases Nat.le_one_iff_eq_zero_or_eq_one.mp h1 with rfl | rfl
    · rfl
    · rfl
  | unsigned b =>
    have h1 : i ≤ 2 ^ b - 1 := h
    have hpos : 0 < 2 ^ b := Nat.pow_pos (by decide)
    have hlt : i < 2 ^ b := by omega
    show ((i % 2 ^ b : Nat) : Int) = (i : Int)
    rw [Nat.mod_eq_of_lt hlt]
  | signed b =>
    have h1 : i ≤ 2 ^ (b - 1) - 1 := h
    have hpos : 0 < 2 ^ (b - 1) := Nat.pow_pos (by decide)
    have hle : 2 ^ (b - 1) ≤ 2 ^ b := Nat.pow_le_pow_right (by decide) (Nat.sub_le b 1)
    have hlt : i < 2 ^ b := by omega
    have hlt1 : i < 2 ^ (b - 1) := by omega
    show (if i % 2 ^ b < 2 ^ (b - 1) then ((i % 2 ^ b : Nat) : Int)
      else ((i % 2 ^ b : Nat) : Int) - ((2 ^ b : Nat) : Int)) = (i : Int)
    rw [Nat.mod_eq_of_lt hlt, if_pos hlt1]

/-- C10, as the code has it: for an integral type `T` and `N ≥ 1`, `iota<T, N>()` is a
view of arity `N` whose element at index `I` is the cast `(T)I`, which is `I` itself
whenever `I` is at most the largest value of `T`. -/
theorem iota_elements (T : integral) (N : Nat) (hN : 0 < N) :
    ∃ v, views.iota T N = some v ∧ size_of Unit v = N
      ∧ ∀ I : Fin N, (element I v ()).1.value = T.cast I
          ∧ (I.val ≤ T.max → (element I v ()).1.value = (I.val : Int)) := by
  refine ⟨⟨⟨fun I => ⟨T.cast I⟩⟩⟩, ?_, rfl, fun I => ⟨rfl, fun h => ?_⟩⟩
  · show Option.map views.view_obj_iota.mk (if N = 0 then none else some _) = _
    rw [if_neg (Nat.pos_iff_ne_zero.mp hN)]
    rfl
  · exact integral_cast_of_le_max T I h

/-- C10 on `iota<int, 5>()`: arity 5 and the elements 0, 1, 2, 3, 4. -/
theorem iota_elements_witness :
    ∃ v, views.iota (integral.signed 32) 5 = some v ∧ size_of Unit v = 5
      ∧ ∀ I : Fin 5, (element I v ()).1.value = (integral.signed 32).cast I
          ∧ (I.val ≤ (integral.signed 32).max → (element I v ()).1.value = (I.val : Int)) :=
  iota_elements (integral.signed 32) 5 (by decide)

/-- C10 fails as stated: element 2 of `iota<bool, 3>()` is `true` (1), element 256 of
`iota<unsigned char, 300>()` is 0, and `iota<int, 0>()` does not build. -/
theorem iota_elements_counterexample :
    (views.iota integral.bool 3).map (fun v => (element (2 : Fin 3) v ()).1.value) = some 1
      ∧ (views.iota (integral.unsigned 8) 300).map
          (fun v => (element (⟨256, by decide⟩ : Fin 300) v ()).1.value) = some 0
      ∧ views.iota (integral.signed 32) 0 = none := by
  refine ⟨rfl, ?_, rfl⟩
  decide

/-- C11, as the code has it: for an integral type `T` and an `N` whose indices all fit
in `T`, `static_iota<T, N>()` is a view of arity `N` whose element at index `I` has the
type `std::integral_constant<T, I>` (its type-level value is `I`) and the member value
`I`; for a larger `N`, `static_iota<T, N>()` does not build. -/
theorem static_iota_elements (T : integral) (N : Nat) :
    (N ≤ T.max + 1 →
      ∃ v : views.view_obj_iota (tuple N (fun I => integral_constant T (I.val : Int))),
        views.static_iota T N = some v ∧ size_of Unit v = N
          ∧ ∀ I : Fin N,
              ((element I v ()).1 : integral_constant T (I.val : Int)).value = (I.val : Int))
    ∧ (T.max + 1 < N → views.static_iota T N = none) := by
  refine ⟨fun hN => ⟨⟨⟨fun _ => ⟨⟩⟩⟩, ?_, rfl, fun I => rfl⟩, fun hN => ?_⟩
  · show Option.map views.view_obj_iota.mk (if N ≤ T.max + 1 then some _ else none) = _
    rw [if_pos hN]
    rfl
  · show Option.map views.view_obj_iota.mk (if N ≤ T.max + 1 then some _ else none) = _
    rw [if_neg (Nat.not_le.mpr hN)]
    rfl

/-- C11 on `static_iota<int, 5>()`: arity 5; the element at index 2 carries 2. And
`static_iota<unsigned char, 300>()` does not build. -/
theorem static_iota_elements_witness :
    (∃ v : views.view_obj_iota (tuple 5 (fun I => integral_constant (integral.signed 32) (I.val : Int))),
      views.static_iota (integral.signed 32) 5 = some v ∧ size_of Unit v = 5
        ∧ ∀ I : Fin 5,
            ((element I v ()).1 : integral_constant (integral.signed 32) (I.val : Int)).value
              = (I.val : Int))
      ∧ views.static_iota (integral.unsigned 8) 300 = none :=
  ⟨(static_iota_elements (integral.signed 32) 5).1 (by decide),
    (static_iota_elements (integral.unsigned 8) 300).2 (by decide)⟩

/-- C11 fails as stated: `static_iota<unsigned char, 257>()` does not build, since the
index 256 is no value of the type. -/
theorem static_iota_elements_counterexample :
    views.static_iota (integral.unsigned 8) 257 = none :=
  rfl

/-- C12: for a built-in container `r` (a tuple, and with it a pair and a fixed array),
held by value or named in memory, `element<I>(r)` is the slot `std::get<I>(r)` and the
access changes nothing; `size_v` of the type is the declared arity. -/
theorem std_range_element :
    (∀ (W : Type) (n : Nat) (Ts : Fin n → Type) [∀ I, movable (Ts I)] (t : tuple n Ts)
        (I : Fin n) (w : W),
        element I t w = (t.get I, w) ∧ size_v W (tuple n Ts) = n)
    ∧ (∀ (σ : Type) (n : Nat) (Ts : Fin n → Type) [∀ I, movable (Ts I)]
        (r : lvalue (tuple n Ts)) (I : Fin n) (w : World (tuple n Ts) σ),
        element I r w = ((w.heap r.addr).get I, w)
          ∧ size_v (World (tuple n Ts) σ) (lvalue (tuple n Ts)) = n)
    ∧ (∀ (W A B : Type) [movable A] [movable B] (a : A) (b : B) (w : W),
        element 0 (make_pair a b) w = (a, w) ∧ element 1 (make_pair a b) w = (b, w)
          ∧ size_v W (pair A B) = 2)
    ∧ (∀ (W T : Type) (N : Nat) [movable T] (t : array T N) (I : Fin N) (w : W),
        element I t w = (t.get I, w) ∧ size_v W (array T N) = N) :=
  ⟨fun _ _ _ _ _ _ _ => ⟨rfl, rfl⟩, fun _ _ _ _ _ _ _ => ⟨rfl, rfl⟩,
    fun _ _ _ _ _ _ _ _ => ⟨rfl, rfl, rfl⟩, fun _ _ _ _ _ _ _ => ⟨rfl, rfl⟩⟩

/-- C12 on `{42, 3.14, "text"}`: arity 3, and the elements 0 and 2 are 42 and "text". -/
theorem std_range_element_witness :
    (element 0 (sample.range_three 42 3.14 "text") ()).1 = (42 : Int)
      ∧ (element 2 (sample.range_three 42 3.14 "text") ()).1 = "text"
      ∧ size_v Unit (tuple 3 sample.range_three_t) = 3 :=
  ⟨congrArg Prod.fst (std_range_element.1 Unit 3 sample.range_three_t
      (sample.range_three 42 3.14 "text") 0 ()).1,
    congrArg Prod.fst (std_range_element.1 Unit 3 sample.range_three_t
      (sample.range_three 42 3.14 "text") 2 ()).1,
    (std_range_element.1 Unit 3 sample.range_three_t
      (sample.range_three 42 3.14 "text") 0 ()).2⟩

/-- C13: arity is preserved by every view. The reference view `all(r)` of a named range
has the arity of `r`, `all` of a view has the arity of the view, an owning view has the
arity of what it stores, one transform stage keeps the arity of its inner view, and so
does a chain of any number of stages. -/
theorem view_preserves_arity :
    (∀ (R σ : Type) (n : Nat) (Ts : Fin n → Type) [range_traits (World R σ) R n Ts]
        [range_but_not_view R] (r : lvalue R),
        size_of (World R σ) (views.all r) = size_of (World R σ) r
          ∧ size_of (World R σ) r = size_v (World R σ) R)
    ∧ (∀ (W V : Type) (n : Nat) (Ts : Fin n → Type) [range_traits W V n Ts] [view_base V]
        [movable V] (v : V), size_of W (views.all v) = size_of W v)
    ∧ (∀ (W R : Type) (n : Nat) (Ts : Fin n → Type) [range_traits W R n Ts]
        (v : views.view_obj_iota R), size_of W v = size_v W R)
    ∧ (∀ (W R V Func : Type) (n : Nat) (Ts Us : Fin n → Type) [range_traits W V n Ts]
        [views.has_all R V] [invocable W Func Ts Us] [movable Func] (r : R)
        (c : views.range_adaptor_closure Func),
        size_of W (views.pipe r c).view = size_of W (views.all r))
    ∧ (∀ (W R V : Type) (n : Nat) (Ts Us : Fin n → Type) [range_traits W V n Ts]
        [views.has_all R V] [view_base V] [movable V] (s : views.stages W Ts Us) (r : R),
        @size_of W (s.view_t V) n Us (s.traits V) (s.apply (views.all r))
          = size_of W (views.all r)) :=
  ⟨fun _ _ _ _ _ _ _ => ⟨rfl, rfl⟩, fun _ _ _ _ _ _ _ _ => rfl, fun _ _ _ _ _ _ => rfl,
    fun _ _ _ _ _ _ _ _ _ _ _ _ _ => rfl, fun _ _ _ _ _ _ _ _ _ _ _ _ => rfl⟩

/-- C13 on the named pair `{"x", "y"}`: the reference view and a chain of three stages
over it have arity 2. -/
theorem view_preserves_arity_witness :
    size_of (World (tuple 2 sample.strings) Nat) (views.all sample.r) = 2
      ∧ @size_of (World (tuple 2 sample.strings) Nat) _ 2 sample.strings
          (sample.three_stages.traits (views.view_obj (tuple 2 sample.strings)))
          (sample.three_stages.apply (views.all sample.r)) = 2 :=
  ⟨(view_preserves_arity.1 (tuple 2 sample.strings) Nat 2 sample.strings sample.r).1,
    view_preserves_arity.2.2.2.2 (World (tuple 2 sample.strings) Nat)
      (lvalue (tuple 2 sample.strings)) (views.view_obj (tuple 2 sample.strings)) 2
      sample.strings sample.strings sample.three_stages sample.r⟩

/-- C16: reading through a reference view proxies to the referenced range. In every
state of the memory `element<I>(all(r))` is `element<I>(r)`; in particular, after `r` has
been given new contents `t`, or after a direct assignment to one of its elements, the
view built before reads the current contents. -/
theorem reference_view_proxies {R σ : Type} {n : Nat} {Ts : Fin n → Type}
    [range_traits (World R σ) R n Ts] [owning_range (World R σ) R] [range_but_not_view R]
    (r : lvalue R) (I : Fin n) (w : World R σ) :
    element I (views.all r) w = element I r w
      ∧ (∀ t : R,
          (element I (views.all r) { w with heap := Function.update w.heap r.addr t }).1
            = (element I t w).1)
      ∧ (∀ (J : Fin n) (x : Ts J),
          element I (views.all r) (element_assign J x r w).2
            = element I r (element_assign J x r w).2)
      ∧ ∀ x : Ts I, (element I (views.all r) (element_assign I x r w).2).1 = x := by
  refine ⟨rfl, fun t => ?_, fun _ _ => rfl, fun x => ?_⟩
  · show (range_traits.get I (Function.update w.heap r.addr t r.addr) _).1 = _
    rw [Function.update_same]
    exact owning_range.get_indep I t _ w
  · show (range_traits.get I
        (Function.update (range_traits.set I x (w.heap r.addr) w).2.heap r.addr
          (range_traits.set I x (w.heap r.addr) w).1 r.addr) _).1 = x
    rw [Function.update_same, owning_range.get_indep I _ _ w]
    exact owning_range.get_set I x (w.heap r.addr) w

/-- C16 on `r = {42, 3.14, "..."}`: the view reads 42 at index 0, and 7 once `r`
has been assigned 7 at index 0 directly. -/
theorem reference_view_proxies_witness :
    (element 0 (views.all sample.r3) sample.memory_three).1 = (42 : Int)
      ∧ (element 0 (views.all sample.r3)
          (element_assign 0 (7 : Int) sample.r3 sample.memory_three).2).1 = (7 : Int) :=
  ⟨congrArg Prod.fst (@reference_view_proxies (tuple 3 sample.range_three_t) Unit 3
      sample.range_three_t _ _ _ sample.r3 0 sample.memory_three).1,
    (@reference_view_proxies (tuple 3 sample.range_three_t) Unit 3
      sample.range_three_t _ _ _ sample.r3 0 sample.memory_three).2.2.2 (7 : Int)⟩

/-- C17: `to_pair` is defined exactly for the ranges of arity 2. For every other arity it
is rejected. For a range `r` of arity 2 it gives a pair whose components are what
`element<0>(r)` and `element<1>(r)` read, in whichever order the implementation evaluates
the two; and where reading `r` changes nothing, it is the pair
`(element<0>(r), element<1>(r))` whatever that order. -/
theorem to_pair_arity_two :
    (∀ (W Range : Type) (n : Nat) (Ts : Fin n → Type) [range_traits W Range n Ts]
        (o : evaluation_order) (r : Range), n ≠ 2 →
        to_pair o r = (none : Option ((A : Type) × (B : Type) × StateM W (pair A B))))
    ∧ (∀ (W Range : Type) (Ts : Fin 2 → Type) [range_traits W Range 2 Ts] (r : Range),
        (∃ c : StateM W (pair (Ts 0) (Ts 1)),
          to_pair evaluation_order.left_to_right r = some ⟨Ts 0, Ts 1, c⟩
            ∧ ∀ w : W,
                (c w).1 = make_pair (element 0 r w).1 (element 1 r (element 0 r w).2).1
                  ∧ (c w).2 = (element 1 r (element 0 r w).2).2)
        ∧ ∃ c : StateM W (pair (Ts 0) (Ts 1)),
          to_pair evaluation_order.right_to_left r = some ⟨Ts 0, Ts 1, c⟩
            ∧ ∀ w : W,
                (c w).1 = make_pair (element 0 r (element 1 r w).2).1 (element 1 r w).1
                  ∧ (c w).2 = (element 0 r (element 1 r w).2).2)
    ∧ (∀ (W Range : Type) (Ts : Fin 2 → Type) [range_traits W Range 2 Ts]
        [source_range W Range] (o : evaluation_order) (r : Range),
        ∃ c : StateM W (pair (Ts 0) (Ts 1)),
          to_pair o r = some ⟨Ts 0, Ts 1, c⟩
            ∧ ∀ w : W, c w = (make_pair (element 0 r w).1 (element 1 r w).1, w)) := by
  refine ⟨?_, ?_, ?_⟩
  · intro W Range n Ts inst o r hn
    match n, Ts, inst, hn with
    | 0, _, _, _ => rfl
    | 1, _, _, _ => rfl
    | 2, _, _, hn => exact absurd rfl hn
    | _ + 3, _, _, _ => rfl
  · intro W Range Ts inst r
    exact ⟨⟨_, rfl, fun w => ⟨rfl, rfl⟩⟩, ⟨_, rfl, fun w => ⟨rfl, rfl⟩⟩⟩
  · intro W Range Ts inst hs o r
    have h0 : ∀ w : W, (element 0 r w).2 = w := fun w => source_range.get_world 0 r w
    have h1 : ∀ w : W, (element 1 r w).2 = w := fun w => source_range.get_world 1 r w
    cases o with
    | left_to_right =>
      refine ⟨_, rfl, fun w => ?_⟩
      show (make_pair (element 0 r w).1 (element 1 r (element 0 r w).2).1,
        (element 1 r (element 0 r w).2).2) = _
      rw [h0 w, h1 w]
    | right_to_left =>
      refine ⟨_, rfl, fun w => ?_⟩
      show (make_pair (element 0 r (element 1 r w).2).1 (element 1 r w).1,
        (element 0 r (element 1 r w).2).2) = _
      rw [h1 w, h0 w]

/-- C17 on a 3-element range, which is rejected, and on the named pair `{"x", "y"}`,
whose two elements make the pair in either order of evaluation. -/
theorem to_pair_arity_two_witness :
    to_pair evaluation_order.right_to_left (sample.range_three 42 3.14 "text")
        = (none : Option ((A : Type) × (B : Type) × StateM Unit (pair A B)))
      ∧ (∃ c : StateM (World (tuple 2 sample.strings) Unit) (pair String String),
          to_pair evaluation_order.right_to_left sample.r = some ⟨String, String, c⟩
            ∧ (c sample.memory).1 = make_pair "x" "y")
      ∧ ∃ c : StateM (World (tuple 2 sample.strings) Unit) (pair String String),
          to_pair evaluation_order.left_to_right sample.r = some ⟨String, String, c⟩
            ∧ (c sample.memory).1 = make_pair "x" "y" :=
  ⟨to_pair_arity_two.1 Unit (tuple 3 sample.range_three_t) 3 sample.range_three_t
      evaluation_order.right_to_left (sample.range_three 42 3.14 "text") (by decide),
    (to_pair_arity_two.2.2 (World (tuple 2 sample.strings) Unit) (lvalue (tuple 2 sample.strings))
      sample.strings evaluation_order.right_to_left sample.r).imp
      (fun _ h => ⟨h.1, congrArg Prod.fst (h.2 sample.memory)⟩),
    (to_pair_arity_two.2.2 (World (tuple 2 sample.strings) Unit) (lvalue (tuple 2 sample.strings))
      sample.strings evaluation_order.left_to_right sample.r).imp
      (fun _ h => ⟨h.1, congrArg Prod.fst (h.2 sample.memory)⟩)⟩

/-- C18: `element<I>(r)` is total under its precondition. For an index below the arity
the access is the accessor at this index, which yields a value and a next state from
every state; an index that is not below the arity is rejected by the bounds assertion
and yields no value. -/
theorem element_total_in_bounds {W Range : Type} {n : Nat} {Ts : Fin n → Type}
    [range_traits W Range n Ts] (t : Range) (I : Nat) :
    (∀ h : I < n,
        (element_at I t : Except String ((J : Fin n) × StateM W (Ts J)))
            = Except.ok ⟨⟨I, h⟩, element ⟨I, h⟩ t⟩
          ∧ ∀ w : W, ∃ (x : Ts ⟨I, h⟩) (w1 : W), element ⟨I, h⟩ t w = (x, w1))
    ∧ (n ≤ I →
        element_at I t
          = (Except.error "Index out of bounds." : Except String ((J : Fin n) × StateM W (Ts J)))) := by
  refine ⟨fun h => ⟨dif_pos h, fun w => ⟨_, _, rfl⟩⟩, fun h => dif_neg (Nat.not_lt.mpr h)⟩

/-- C18 on `{42, 3.14, "text"}`: index 2 yields "text", index 3 is out of bounds. -/
theorem element_total_in_bounds_witness :
    (∃ c, element_at 2 (sample.range_three 42 3.14 "text")
          = (Except.ok ⟨2, c⟩ : Except String ((J : Fin 3) × StateM Unit (sample.range_three_t J)))
        ∧ (c ()).1 = "text")
      ∧ element_at 3 (sample.range_three 42 3.14 "text")
          = (Except.error "Index out of bounds." :
              Except String ((J : Fin 3) × StateM Unit (sample.range_three_t J))) :=
  ⟨⟨_, ((@element_total_in_bounds Unit (tuple 3 sample.range_three_t) 3 sample.range_three_t _
        (sample.range_three 42 3.14 "text") 2).1 (by decide)).1, rfl⟩,
    (@element_total_in_bounds Unit (tuple 3 sample.range_three_t) 3 sample.range_three_t _
      (sample.range_three 42 3.14 "text") 3).2 (by decide)⟩

/-- One access to a chain of pure, separately counted stages: every stage's counter goes
up by one, the other counters and what the base view reads stay, and the value depends
only on what the base view reads. -/
theorem stages_element_once {W M V : Type} {n : Nat} {Ts Us : Fin n → Type} [view_base V]
    [movable V] [range_traits W V n Ts] (cnt : Nat → W → Nat) (mem : W → M)
    (s : views.stages W Ts Us) (hs : s.pure_counted cnt mem) (I : Fin n) (v : V)
    (hread : ∀ w : W, (element I v w).2 = w)
    (hmem : ∀ w u : W, mem w = mem u → (element I v w).1 = (element I v u).1) (w : W) :
    (∀ j : Nat, j < s.length → cnt j (s.element I v w).2 = cnt j w + 1)
    ∧ (∀ j : Nat, s.length ≤ j → cnt j (s.element I v w).2 = cnt j w)
    ∧ mem (s.element I v w).2 = mem w
    ∧ ∀ u : W, mem w = mem u → (s.element I v w).1 = (s.element I v u).1 := by
  induction s generalizing w with
  | nil =>
    have e : (views.stages.nil : views.stages W Ts Ts).element I v = element I v := rfl
    rw [e, hread w]
    exact ⟨fun j hj => absurd hj (Nat.not_lt_zero j), fun _ _ => rfl, rfl, hmem w⟩
  | snoc s Func c ih =>
    obtain ⟨h1, h2, h3, h4⟩ := ih hs.1 w
    obtain ⟨c1, c2, c3, c4⟩ := hs.2 I (s.element I v w).1 (s.element I v w).2
    rw [stages_element_snoc]
    refine ⟨fun j hj => ?_, fun j hj => ?_, ?_, fun u hu => ?_⟩
    · show cnt j (invocable.call c.m_func I (s.element I v w).1 (s.element I v w).2).2 = _
      rcases Nat.lt_succ_iff_lt_or_eq.mp hj with hlt | rfl
      · rw [c2 j (Nat.ne_of_lt hlt), h1 j hlt]
      · rw [c1, h2 _ (Nat.le_refl _)]
    · show cnt j (invocable.call c.m_func I (s.element I v w).1 (s.element I v w).2).2 = _
      have hj1 : s.length < j := hj
      rw [c2 j (Nat.ne_of_gt hj1), h2 j (Nat.le_of_lt hj1)]
    · show mem (invocable.call c.m_func I (s.element I v w).1 (s.element I v w).2).2 = _
      rw [c3, h3]
    · rw [stages_element_snoc]
      show (invocable.call c.m_func I (s.element I v w).1 (s.element I v w).2).1.1
        = (invocable.call c.m_func I (s.element I v u).1 (s.element I v u).2).1.1
      rw [← h4 u hu, c4 (s.element I v u).2]

/-- The values and the counters after `k` accesses. -/
theorem stages_access_spec {W M V : Type} {n : Nat} {Ts Us : Fin n → Type} [view_base V]
    [movable V] [range_traits W V n Ts] (cnt : Nat → W → Nat) (mem : W → M)
    (s : views.stages W Ts Us) (hs : s.pure_counted cnt mem) (I : Fin n) (v : V)
    (hread : ∀ w : W, (element I v w).2 = w)
    (hmem : ∀ w u : W, mem w = mem u → (element I v w).1 = (element I v u).1) (k : Nat)
    (w : W) :
    (∀ j : Nat, j < s.length → cnt j (s.access I v k w).2 = cnt j w + k)
    ∧ mem (s.access I v k w).2 = mem w
    ∧ (s.access I v k w).1 = List.replicate k (s.element I v w).1 := by
  induction k generalizing w with
  | zero => exact ⟨fun _ _ => rfl, rfl, rfl⟩
  | succ k ih =>
    obtain ⟨h1, _, h3, h4⟩ := stages_element_once cnt mem s hs I v hread hmem w
    obtain ⟨a1, a2, a3⟩ := ih (s.element I v w).2
    have e : s.access I v (k + 1) w
        = ((s.element I v w).1 :: (s.access I v k (s.element I v w).2).1,
            (s.access I v k (s.element I v w).2).2) := rfl
    rw [e]
    refine ⟨fun j hj => ?_, ?_, ?_⟩
    · show cnt j (s.access I v k (s.element I v w).2).2 = _
      rw [a1 j hj, h1 j hj]
      omega
    · show mem (s.access I v k (s.element I v w).2).2 = _
      rw [a2, h3]
    · show (s.element I v w).1 :: (s.access I v k (s.element I v w).2).1 = _
      rw [a3, ← h4 _ h3.symm]
      rfl

/-- C19: no memoization. For a chain of pure stages over a range, each with an
invocation counter of its own, one access to element `I` raises the counter of every
stage by exactly one, and `k` accesses to the same index raise each of them by exactly
`k` and give the same value `k` times. -/
theorem no_memoization {W M R V : Type} {n : Nat} {Ts Us : Fin n → Type} [views.has_all R V]
    [view_base V] [movable V] [range_traits W V n Ts] (cnt : Nat → W → Nat) (mem : W → M)
    (s : views.stages W Ts Us) (hs : s.pure_counted cnt mem) (r : R) (I : Fin n)
    (hread : ∀ w : W, (element I (views.all r) w).2 = w)
    (hmem : ∀ w u : W, mem w = mem u →
      (element I (views.all r) w).1 = (element I (views.all r) u).1)
    (w : W) :
    (∀ j : Nat, j < s.length → cnt j (s.element I (views.all r) w).2 = cnt j w + 1)
    ∧ ∀ k : Nat,
        (∀ j : Nat, j < s.length → cnt j (s.access I (views.all r) k w).2 = cnt j w + k)
          ∧ (s.access I (views.all r) k w).1
              = List.replicate k (s.element I (views.all r) w).1 :=
  ⟨(stages_element_once cnt mem s hs I (views.all r) hread hmem w).1,
    fun k => ⟨(stages_access_spec cnt mem s hs I (views.all r) hread hmem k w).1,
      (stages_access_spec cnt mem s hs I (views.all r) hread hmem k w).2.2⟩⟩

/-- C19 on three separately counted stages over the named pair `{"x", "y"}`: one access
to index 1 raises each of the three counters to 1, and `k` accesses raise each to `k` and
read "y123" every time. -/
theorem no_memoization_witness :
    (∀ j : Nat, j < 3 →
        (sample.tally_stages.element 1 (views.all sample.r) sample.tally_memory).2.env j = 1)
      ∧ ∀ k : Nat,
          (∀ j : Nat, j < 3 →
              (sample.tally_stages.access 1 (views.all sample.r) k sample.tally_memory).2.env j
                = k)
            ∧ (sample.tally_stages.access 1 (views.all sample.r) k sample.tally_memory).1
                = List.replicate k "y123" := by
  have h := @no_memoization (World (tuple 2 sample.strings) (Nat → Nat))
    (Nat → tuple 2 sample.strings) (lvalue (tuple 2 sample.strings))
    (views.view_obj (tuple 2 sample.strings)) 2 sample.strings sample.strings _ _ _ _
    (fun j w => w.env j) (fun w => w.heap) sample.tally_stages
    ⟨⟨⟨trivial,
        fun _ _ w => ⟨Function.update_same 0 _ w.env,
          fun _ hj => Function.update_noteq hj _ w.env, rfl, fun _ => rfl⟩⟩,
        fun _ _ w => ⟨Function.update_same 1 _ w.env,
          fun _ hj => Function.update_noteq hj _ w.env, rfl, fun _ => rfl⟩⟩,
      fun _ _ w => ⟨Function.update_same 2 _ w.env,
        fun _ hj => Function.update_noteq hj _ w.env, rfl, fun _ => rfl⟩⟩
    sample.r 1 (fun _ => rfl)
    (fun _ _ h => congrArg (fun hp : Nat → tuple 2 sample.strings => (hp 0).get 1) h)
    sample.tally_memory
  refine ⟨h.1, fun k => ⟨fun j hj => ?_, (h.2 k).2⟩⟩
  have hk := (h.2 k).1 j hj
  rw [hk]
  exact Nat.zero_add k

/-- C15 at a function with a captured string: `c = transform(f)` with `f` appending "!"
is applied to `r1` and then to `r2` (both `{"x", "y"}`). The first view reads "y!" at
index 1. The call operator has moved the function out of the closure, whose captured
string is left empty, so that the second view reads "y", not "y!". -/
theorem closure_reuse_moved_from :
    (element 1 ((views.transform (sample.with_suffix.mk "!")).call sample.r).view
        sample.memory).1 = "y!"
      ∧ ((views.transform (sample.with_suffix.mk "!")).call sample.r).closure.m_func.suffix = ""
      ∧ (element 1
          (((views.transform (sample.with_suffix.mk "!")).call sample.r).closure.call
            sample.r2).view sample.memory).1 = "y"
      ∧ (element 1 ((views.transform (sample.with_suffix.mk "!")).call sample.r2).view
          sample.memory).1 = "y!" := by
  decide

/-- C20 at a named source: `src = {42, 3.14, "Some_..."}` is a named range, passed to
`copy` as an lvalue. `copy_impl::assign` reads it through `std::move(r1)`, so its
string is moved into the destination: the destination holds the string and element 2 of
`src` is left empty, while the two scalars keep their values. -/
theorem copy_moves_from_named_source :
    (element 2 sample.r3 sample.memory_three).1
        = "Some_quite_large_string_containing_Foo_and_Bar"
      ∧ (element 2 (copy sample.r3 (sample.range_three 0 0 "") sample.memory_three).1.2
          (copy sample.r3 (sample.range_three 0 0 "") sample.memory_three).2).1
        = "Some_quite_large_string_containing_Foo_and_Bar"
      ∧ (element 2 sample.r3
          (copy sample.r3 (sample.range_three 0 0 "") sample.memory_three).2).1 = ""
      ∧ (element 0 sample.r3
          (copy sample.r3 (sample.range_three 0 0 "") sample.memory_three).2).1 = (42 : Int) := by
  refine ⟨rfl, ?_, ?_, ?_⟩
  · rfl
  · rfl
  · rfl

/-- Reading a range that can be read from leaves the state as it is. -/
theorem element_reads_id {W Range : Type} {n : Nat} {Ts : Fin n → Type}
    [range_traits W Range n Ts] [source_range W Range] (r : Range) (is : List (Fin n)) (w : W) :
    element_reads r is w = w := by
  induction is generalizing w with
  | nil => rfl
  | cons I Is ih =>
    show element_reads r Is (range_traits.get I r w).2 = w
    rw [source_range.get_world I r w]
    exact ih w

/-- Moving elements out of a range that can be read from leaves the elements at the
other indices as they were. -/
theorem element_moves_ne {W Range : Type} {n : Nat} {Ts : Fin n → Type}
    [range_traits W Range n Ts] [source_range W Range] (is : List (Fin n)) (r : Range) (w : W)
    (J : Fin n) (hJ : J ∉ is) :
    (range_traits.get J (element_moves is r w).1 (element_moves is r w).2).1
      = (range_traits.get J r w).1 := by
  induction is generalizing r w with
  | nil => rfl
  | cons I Is ih =>
    have hne : J ≠ I := fun e => hJ (e ▸ List.mem_cons_self I Is)
    have hJs : J ∉ Is := fun e => hJ (List.mem_cons_of_mem I e)
    show (range_traits.get J
        (element_moves Is (range_traits.take I r w).1.2 (range_traits.take I r w).2).1
        (element_moves Is (range_traits.take I r w).1.2 (range_traits.take I r w).2).2).1 = _
    rw [ih _ _ hJs, source_range.take_ne I J r w hne]

/-- An element consumed after others have been consumed is the element the range had. -/
theorem element_moves_take {W Range : Type} {n : Nat} {Ts : Fin n → Type}
    [range_traits W Range n Ts] [source_range W Range] (is : List (Fin n)) (r : Range) (w : W)
    (I : Fin n) (hI : I ∉ is) :
    (range_traits.take I (element_moves is r w).1 (element_moves is r w).2).1.1
      = (range_traits.get I r w).1 := by
  rw [source_range.take_val]
  exact element_moves_ne is r w I hI

/-- An index does not come before itself in an order of evaluation. -/
theorem not_mem_takeWhile_ne {n : Nat} (I : Fin n) (order : List (Fin n)) :
    I ∉ order.takeWhile (fun J => decide (J ≠ I)) := by
  induction order with
  | nil => exact List.not_mem_nil I
  | cons K Ks ih =>
    by_cases h : K = I
    · simp [List.takeWhile_cons, h]
    · have e : (K :: Ks).takeWhile (fun J => decide (J ≠ I))
          = K :: Ks.takeWhile (fun J => decide (J ≠ I)) := by
        simp [List.takeWhile_cons, h]
      rw [e]
      intro hm
      rcases List.mem_cons.mp hm with e1 | hm1
      · exact h e1.symm
      · exact ih hm1

/-- Component `I` of `to_tuple(std::move(r))` is the element `I` that `r` had. -/
theorem to_tuple_rvalue_get {W Range : Type} {n : Nat} {Ts : Fin n → Type}
    [range_traits W Range n Ts] [source_range W Range] (order : List (Fin n)) (r : Range)
    (w : W) (I : Fin n) :
    (to_tuple_rvalue order r w).1.1.get I = (element I r w).1 :=
  element_moves_take _ r w I (not_mem_takeWhile_ne I order)

/-- Nothing is moved out through a reference view of a container: consuming its elements
leaves the view and the state as they are. -/
theorem element_moves_view_obj {R σ : Type} {n : Nat} {Ts : Fin n → Type}
    [range_traits (World R σ) R n Ts] [owning_range (World R σ) R] (is : List (Fin n))
    (v : views.view_obj R) (w : World R σ) : element_moves is v w = (v, w) := by
  induction is with
  | nil => rfl
  | cons I Is ih =>
    have e : element_moves (I :: Is) v w
        = element_moves Is v (range_traits.get I (w.heap v.m_data.addr) w).2 := rfl
    rw [e, owning_range.get_world I (w.heap v.m_data.addr) w]
    exact ih

/-- C21: for a range `r` of arity `n`, `to_tuple(r)` is a tuple of arity `n` whose
component `I` is `element<I>(r)`, for every index `I`, whether `r` is an lvalue (copies,
`r` is only read) or a temporary (its elements are moved into the tuple), and in whatever
order the arguments of `std::make_tuple` are evaluated; and for a named tuple `t`,
`to_tuple(all(t))` is equal to `t` and leaves `t` as it is. -/
theorem to_tuple_components :
    (∀ (W Range : Type) (n : Nat) (Ts : Fin n → Type) [range_traits W Range n Ts]
        [source_range W Range] [∀ I, movable (Ts I)] (order : List (Fin n)) (r : Range) (w : W),
        size_of W (to_tuple order r w).1 = size_of W r
          ∧ (to_tuple order r w).2 = w
          ∧ ∀ I : Fin n, element I (to_tuple order r w).1 w = ((element I r w).1, w))
    ∧ (∀ (W Range : Type) (n : Nat) (Ts : Fin n → Type) [range_traits W Range n Ts]
        [source_range W Range] [∀ I, movable (Ts I)] (order : List (Fin n)) (r : Range) (w : W)
        (I : Fin n),
        size_of W (to_tuple_rvalue order r w).1.1 = size_of W r
          ∧ (element I (to_tuple_rvalue order r w).1.1 w).1 = (element I r w).1)
    ∧ (∀ (σ : Type) (n : Nat) (Ts : Fin n → Type) [∀ I, movable (Ts I)]
        (order : List (Fin n)) (t : lvalue (tuple n Ts)) (w : World (tuple n Ts) σ),
        to_tuple_rvalue order (views.all t) w = ((w.heap t.addr, views.all t), w)
          ∧ to_tuple order t w = (w.heap t.addr, w)) := by
  refine ⟨?_, ?_, ?_⟩
  · intro W Range n Ts _ _ _ order r w
    refine ⟨rfl, element_reads_id r _ w, fun I => ?_⟩
    show ((element I r (element_reads r (order.takeWhile (fun J => decide (J ≠ I))) w)).1, w)
      = ((element I r w).1, w)
    rw [element_reads_id]
  · intro W Range n Ts _ _ _ order r w I
    exact ⟨rfl, to_tuple_rvalue_get order r w I⟩
  · intro σ n Ts _ order t w
    refine ⟨?_, ?_⟩
    · have h : ∀ I : Fin n,
          (to_tuple_rvalue order (views.all t) w).1.1.get I = (w.heap t.addr).get I :=
        fun I => to_tuple_rvalue_get order (views.all t) w I
      have h1 : (to_tuple_rvalue order (views.all t) w).1.1 = w.heap t.addr :=
        congrArg tuple.mk (funext h)
      have h2 : ((to_tuple_rvalue order (views.all t) w).1.2,
          (to_tuple_rvalue order (views.all t) w).2) = (views.all t, w) :=
        element_moves_view_obj _ (views.all t) w
      have h3 := congrArg Prod.fst h2
      have h4 := congrArg Prod.snd h2
      exact Prod.ext (Prod.ext h1 h3) h4
    · have h : ∀ I : Fin n, (to_tuple order t w).1.get I = (w.heap t.addr).get I := by
        intro I
        show (element I t (element_reads t _ w)).1 = _
        rw [element_reads_id]
        rfl
      have h1 : (to_tuple order t w).1 = w.heap t.addr := congrArg tuple.mk (funext h)
      exact Prod.ext h1 (element_reads_id t _ w)

/-- C21 on the named `{42, 3.14, "Some_..."}`: `to_tuple(all(r))` is the tuple itself,
with the arguments evaluated right to left as well as left to right. -/
theorem to_tuple_components_witness :
    (to_tuple_rvalue [2, 1, 0] (views.all sample.r3) sample.memory_three).1.1
        = sample.range_three 42 3.14 "Some_quite_large_string_containing_Foo_and_Bar"
      ∧ (to_tuple_rvalue [0, 1, 2] (views.all sample.r3) sample.memory_three).1.1
        = sample.range_three 42 3.14 "Some_quite_large_string_containing_Foo_and_Bar"
      ∧ (to_tuple_rvalue [2, 1, 0] (views.all sample.r3) sample.memory_three).2
        = sample.memory_three :=
  ⟨congrArg (fun p => p.1.1)
      (to_tuple_components.2.2 Unit 3 sample.range_three_t [2, 1, 0] sample.r3
        sample.memory_three).1,
    congrArg (fun p => p.1.1)
      (to_tuple_components.2.2 Unit 3 sample.range_three_t [0, 1, 2] sample.r3
        sample.memory_three).1,
    congrArg Prod.snd
      (to_tuple_components.2.2 Unit 3 sample.range_three_t [2, 1, 0] sample.r3
        sample.memory_three).1⟩

/-- On a non-empty index sequence, with every element convertible, the trait is true. -/
theorem is_copy_constructible_arr_cons {n : Nat} (Ts : Fin n → Type) (T : Type)
    [∀ I, convertible (Ts I) T] (I : Fin n) (Is : List (Fin n)) :
    is_copy_constructible_arr Ts T (I :: Is) = some true := by
  induction Is generalizing I with
  | nil => rfl
  | cons I2 Is ih =>
    show (is_copy_constructible_arr Ts T (I2 :: Is)).map
      (fun b => is_copy_constructible_impl (Ts I) T && b) = some true
    rw [ih I2]
    rfl

/-- The index sequence of a range of positive arity, and the trait on it. -/
theorem is_copy_constructible_arr_pos {W Range : Type} {n : Nat} {Ts : Fin n → Type}
    [range_traits W Range n Ts] (T : Type) [∀ I, convertible (Ts I) T] (hn : 0 < n) :
    is_copy_constructible_arr Ts T (make_sequence W Range) = some true := by
  have hlen : (make_sequence W Range).length = n := List.length_finRange n
  cases hs : make_sequence W Range with
  | nil =>
    rw [hs] at hlen
    exact absurd hlen.symm (Nat.pos_iff_ne_zero.mp hn)
  | cons I Is => exact is_copy_constructible_arr_cons Ts T I Is

/-- C22: for an element type `T` and a non-empty range `r` of arity `n` whose elements
are all convertible to `T`, `to_array<T>(r)` is an array of exactly `n` entries whose
entry `I` is `element<I>(r)` converted to `T`, for every index `I`, whether `r` is an
lvalue or a temporary. For a range of arity 0 the call does not build. -/
theorem to_array_entries {W Range : Type} {n : Nat} {Ts : Fin n → Type}
    [range_traits W Range n Ts] [source_range W Range] (T : Type) [∀ I, convertible (Ts I) T]
    [movable T] (r : Range) :
    (0 < n →
      (∃ a : StateM W (array T n), to_array T r = some a
        ∧ ∀ w : W, size_of W (a w).1 = n ∧ (a w).2 = w
            ∧ ∀ I : Fin n, (element I (a w).1 w).1 = convertible.convert (element I r w).1)
      ∧ ∃ b : StateM W (array T n × Range), to_array_rvalue T r = some b
        ∧ ∀ (w : W) (I : Fin n),
            size_of W (b w).1.1 = n
              ∧ (element I (b w).1.1 w).1 = convertible.convert (element I r w).1)
    ∧ (n = 0 → (to_array T r : Option (StateM W (array T n))) = none
        ∧ (to_array_rvalue T r : Option (StateM W (array T n × Range))) = none) := by
  refine ⟨fun hn => ⟨?_, ?_⟩, fun hn => ?_⟩
  · refine ⟨fun w =>
        (⟨fun I => convertible.convert
            (element I r
              (element_reads r ((make_sequence W Range).filter (fun J => J < I)) w)).1⟩,
          element_reads r (make_sequence W Range) w),
      ?_, fun w => ⟨rfl, element_reads_id r _ w, fun I => ?_⟩⟩
    · simp only [to_array, to_array_impl.call_to,
        @is_copy_constructible_arr_pos W Range n Ts _ T _ hn]
    · show convertible.convert
        (element I r (element_reads r ((make_sequence W Range).filter (fun J => J < I)) w)).1 = _
      rw [element_reads_id]
  · refine ⟨fun w =>
        ((⟨fun I => convertible.convert
            (element_move I
              (element_moves ((make_sequence W Range).filter (fun J => J < I)) r w).1
              (element_moves ((make_sequence W Range).filter (fun J => J < I)) r w).2).1.1⟩,
          (element_moves (make_sequence W Range) r w).1),
          (element_moves (make_sequence W Range) r w).2),
      ?_, fun w I => ⟨rfl, ?_⟩⟩
    · simp only [to_array_rvalue, to_array_impl.call_to_rvalue,
        @is_copy_constructible_arr_pos W Range n Ts _ T _ hn]
    · have hI : I ∉ (make_sequence W Range).filter (fun J => J < I) := by
        intro h
        have h2 := (List.mem_filter.mp h).2
        simp at h2
      exact congrArg convertible.convert (element_moves_take _ r w I hI)
  · subst hn
    exact ⟨rfl, rfl⟩

/-- C22 on the pair `{7, 200}` of `unsigned char`: `to_array<int>` gives the two entries
7 and 200 as `int`. -/
theorem to_array_entries_witness :
    ∃ a : StateM Unit (array (integer (integral.signed 32)) 2),
      to_array (integer (integral.signed 32)) sample.bytes = some a
        ∧ (element 0 (a ()).1 ()).1 = ⟨7⟩ ∧ (element 1 (a ()).1 ()).1 = ⟨200⟩ :=
  ((@to_array_entries Unit (tuple 2 (fun _ => integer (integral.unsigned 8))) 2 _ _ _
      (integer (integral.signed 32)) _ _ sample.bytes).1 (by decide)).1.imp
    (fun _ h => ⟨h.1, ((h.2 ()).2.2 0), ((h.2 ()).2.2 1)⟩)

/-- One more stage: consuming an element of the chain `s | c` applies `c` to what
consuming it from `s` gives. -/
theorem stages_element_move_snoc {W : Type} {n : Nat} {Ts Us Vs : Fin n → Type} {V : Type}
    [view_base V] [movable V] [range_traits W V n Ts] (s : views.stages W Ts Us) (Func : Type)
    [invocable W Func Us Vs] [movable Func] (c : views.range_adaptor_closure Func) (I : Fin n)
    (v : V) (w : W) :
    ((views.stages.snoc s Func c).element_move I v w).2
      = (invocable.call c.m_func I (s.element_move I v w).1.1 (s.element_move I v w).2).2 :=
  rfl

/-- Access to a chain over a base view that leaves `mem` alone leaves `mem` alone, whether
the element is read or consumed. -/
theorem stages_element_keeps {W M V : Type} {n : Nat} {Ts Us : Fin n → Type} [view_base V]
    [movable V] [range_traits W V n Ts] (mem : W → M) (s : views.stages W Ts Us)
    (hs : s.keeps mem) (I : Fin n) (v : V)
    (hget : ∀ w : W, mem (element I v w).2 = mem w)
    (htake : ∀ w : W, mem (element_move I v w).2 = mem w) (w : W) :
    mem (s.element I v w).2 = mem w ∧ mem (s.element_move I v w).2 = mem w := by
  induction s with
  | nil => exact ⟨hget w, htake w⟩
  | snoc s Func c ih =>
    obtain ⟨h1, h2⟩ := ih hs.1
    refine ⟨?_, ?_⟩
    · rw [stages_element_snoc]
      show mem (invocable.call c.m_func I (s.element I v w).1 (s.element I v w).2).2 = _
      rw [hs.2, h1]
    · rw [stages_element_move_snoc, hs.2, h2]

/-- C23: a transform view never writes through to its source. For a named container `r`
and a chain of any number of transform stages over `all(r)`, an access to element `I` of
the chain, read or consumed, leaves the caller's ranges as they are, so that every
element of `r` has the value it had; the stage functions may assign to their argument. -/
theorem transform_never_writes_through {R σ : Type} {n : Nat} {Ts Us : Fin n → Type}
    [range_traits (World R σ) R n Ts] [owning_range (World R σ) R] [range_but_not_view R]
    (s : views.stages (World R σ) Ts Us) (hs : s.keeps (fun w => w.heap)) (r : lvalue R)
    (I : Fin n) (w : World R σ) :
    ((s.element I (views.all r) w).2.heap = w.heap
      ∧ ∀ J : Fin n, (element J r (s.element I (views.all r) w).2).1 = (element J r w).1)
    ∧ ((s.element_move I (views.all r) w).2.heap = w.heap
      ∧ ∀ J : Fin n,
          (element J r (s.element_move I (views.all r) w).2).1 = (element J r w).1) := by
  have hbase : ∀ u : World R σ, (element I (views.all r) u).2 = u :=
    fun u => owning_range.get_world I (u.heap r.addr) u
  have hbase2 : ∀ u : World R σ, (element_move I (views.all r) u).2 = u :=
    fun u => owning_range.get_world I (u.heap r.addr) u
  obtain ⟨h1, h2⟩ := stages_element_keeps (fun u : World R σ => u.heap) s hs I (views.all r)
    (fun u => congrArg World.heap (hbase u)) (fun u => congrArg World.heap (hbase2 u)) w
  have hread : ∀ (u : World R σ) (J : Fin n), u.heap = w.heap →
      (element J r u).1 = (element J r w).1 := by
    intro u J hu
    show (range_traits.get J (u.heap r.addr) u).1 = (range_traits.get J (w.heap r.addr) w).1
    rw [hu]
    exact owning_range.get_indep J _ u w
  exact ⟨⟨h1, fun J => hread _ J h1⟩, ⟨h2, fun J => hread _ J h2⟩⟩

/-- C23 on two stages that clear their argument, over the named pair `{"x", "y"}`: the
chain reads "x12" at index 0 and the pair still holds "x" and "y". -/
theorem transform_never_writes_through_witness :
    (sample.clearing_stages.element 0 (views.all sample.r) sample.memory).1 = "x12"
      ∧ ∀ J : Fin 2,
          (element J sample.r
              (sample.clearing_stages.element 0 (views.all sample.r) sample.memory).2).1
            = (element J sample.r sample.memory).1 :=
  ⟨by decide,
    (@transform_never_writes_through (tuple 2 sample.strings) Unit 2 sample.strings
      sample.strings _ _ _ sample.clearing_stages
      ⟨⟨trivial, fun _ _ _ => rfl⟩, fun _ _ _ => rfl⟩ sample.r 0 sample.memory).1.2⟩

/-- C24 at a named view whose function carries a captured string: `v = r | transform(f)`
with `f` appending "!" over the pair `{"x", "y"}`, and `c = transform(g)` with `g`
appending "?". Before the composition `v` reads "y!" at index 1. Building `v | c` moves
`v` into the new view, which reads "y!?"; the named `v` is left with an empty captured
string and reads "y", not "y!". -/
theorem compose_moves_from_named_view :
    (element 1 sample.v sample.memory).1 = "y!"
      ∧ (element 1 (views.pipe sample.v (views.transform (sample.with_suffix.mk "?"))).view
          sample.memory).1 = "y!?"
      ∧ (views.pipe sample.v (views.transform (sample.with_suffix.mk "?"))).range.m_func.suffix
          = ""
      ∧ (element 1 (views.pipe sample.v (views.transform (sample.with_suffix.mk "?"))).range
          sample.memory).1 = "y" := by
  decide

/-- The cast of an index to a signed type of `b` bits is congruent to the index modulo
2^b and lies in the range of the type. -/
theorem integral_cast_signed (b i : Nat) :
    (integral.signed b).cast i % (2 : Int) ^ b = (i : Int) % (2 : Int) ^ b
      ∧ -(2 : Int) ^ (b - 1) ≤ (integral.signed b).cast i
      ∧ (integral.signed b).cast i < (2 : Int) ^ (b - 1) := by
  have hp : 0 < 2 ^ b := Nat.pow_pos (by decide)
  have hq : 0 < 2 ^ (b - 1) := Nat.pow_pos (by decide)
  have hpq : 2 ^ b ≤ 2 * 2 ^ (b - 1) := by
    cases b with
    | zero => decide
    | succ k => rw [Nat.add_sub_cancel, Nat.pow_succ]; omega
  have hm : i % 2 ^ b < 2 ^ b := Nat.mod_lt _ hp
  have e1 : (2 : Int) ^ b = ((2 ^ b : Nat) : Int) := by push_cast; rfl
  have e2 : (2 : Int) ^ (b - 1) = ((2 ^ (b - 1) : Nat) : Int) := by push_cast; rfl
  have hmod : ((i % 2 ^ b : Nat) : Int) = (i : Int) % ((2 ^ b : Nat) : Int) := Int.natCast_mod i (2 ^ b)
  rw [e1, e2]
  show (if i % 2 ^ b < 2 ^ (b - 1) then ((i % 2 ^ b : Nat) : Int)
      else ((i % 2 ^ b : Nat) : Int) - ((2 ^ b : Nat) : Int)) % _ = _ ∧ _ ≤ (if i % 2 ^ b < 2 ^ (b - 1) then ((i % 2 ^ b : Nat) : Int)
      else ((i % 2 ^ b : Nat) : Int) - ((2 ^ b : Nat) : Int)) ∧ (if i % 2 ^ b < 2 ^ (b - 1) then ((i % 2 ^ b : Nat) : Int)
      else ((i % 2 ^ b : Nat) : Int) - ((2 ^ b : Nat) : Int)) < _
  by_cases h : i % 2 ^ b < 2 ^ (b - 1)
  · rw [if_pos h]
    refine ⟨?_, ?_, ?_⟩
    · rw [hmod, Int.emod_emod_of_dvd _ (dvd_refl _)]
    · omega
    · omega
  · rw [if_neg h]
    refine ⟨?_, ?_, ?_⟩
    · rw [Int.sub_emod, Int.emod_self, sub_zero, Int.emod_emod_of_dvd _ (dvd_refl _), hmod,
        Int.emod_emod_of_dvd _ (dvd_refl _)]
    · omega
    · omega

/-- The cast of an index is the index itself exactly when the index is at most the
largest value of the type. -/
theorem integral_cast_eq_iff (T : integral) (i : Nat) : T.cast i = (i : Int) ↔ i ≤ T.max := by
  cases T with
  | bool =>
    show (if i = 0 then (0 : Int) else 1) = (i : Int) ↔ i ≤ 1
    by_cases h : i = 0
    · rw [if_pos h]; omega
    · rw [if_neg h]; omega
  | unsigned b =>
    have hp : 0 < 2 ^ b := Nat.pow_pos (by decide)
    have hm : i % 2 ^ b < 2 ^ b := Nat.mod_lt _ hp
    show ((i % 2 ^ b : Nat) : Int) = (i : Int) ↔ i ≤ 2 ^ b - 1
    constructor
    · intro h
      have h2 : i % 2 ^ b = i := Int.ofNat_inj.mp h
      omega
    · intro h
      rw [Nat.mod_eq_of_lt (by omega)]
  | signed b =>
    have hp : 0 < 2 ^ b := Nat.pow_pos (by decide)
    have hq : 0 < 2 ^ (b - 1) := Nat.pow_pos (by decide)
    have hle : 2 ^ (b - 1) ≤ 2 ^ b := Nat.pow_le_pow_right (by decide) (Nat.sub_le b 1)
    have hm : i % 2 ^ b < 2 ^ b := Nat.mod_lt _ hp
    have hmi : i % 2 ^ b ≤ i := Nat.mod_le _ _
    show (if i % 2 ^ b < 2 ^ (b - 1) then ((i % 2 ^ b : Nat) : Int)
      else ((i % 2 ^ b : Nat) : Int) - ((2 ^ b : Nat) : Int)) = (i : Int) ↔ i ≤ 2 ^ (b - 1) - 1
    by_cases h : i % 2 ^ b < 2 ^ (b - 1)
    · rw [if_pos h]
      constructor
      · intro h1
        have h2 : i % 2 ^ b = i := Int.ofNat_inj.mp h1
        omega
      · intro h1
        rw [Nat.mod_eq_of_lt (by omega)]
    · rw [if_neg h]
      constructor
      · intro h1
        omega
      · intro h1
        have : i % 2 ^ b = i := Nat.mod_eq_of_lt (by omega)
        omega

/-- C25: for an integral type `T` of `b` bits, `N ≥ 1` and an index `I < N`, element `I`
of `iota<T, N>()` is the cast `(T)I`: `I` modulo 2^b for an unsigned type, the value
congruent to `I` modulo 2^b in the range of the type for a signed type, and `true` (1)
for a nonzero `I` for `bool`; it is `I` itself exactly when `I` is representable in `T`. -/
theorem iota_cast_elements (T : integral) (N : Nat) (hN : 0 < N) :
    ∃ v, views.iota T N = some v ∧ size_of Unit v = N
      ∧ ∀ I : Fin N,
          (element I v ()).1.value = T.cast I
            ∧ (T = integral.bool → (element I v ()).1.value = if I.val = 0 then 0 else 1)
            ∧ (∀ b : Nat, T = integral.unsigned b →
                (element I v ()).1.value = ((I.val % 2 ^ b : Nat) : Int))
            ∧ (∀ b : Nat, T = integral.signed b →
                (element I v ()).1.value % (2 : Int) ^ b = (I.val : Int) % (2 : Int) ^ b
                  ∧ -(2 : Int) ^ (b - 1) ≤ (element I v ()).1.value
                  ∧ (element I v ()).1.value < (2 : Int) ^ (b - 1))
            ∧ ((element I v ()).1.value = (I.val : Int) ↔ I.val ≤ T.max) := by
  refine ⟨⟨⟨fun I => ⟨T.cast I⟩⟩⟩, ?_, rfl, fun I => ⟨rfl, ?_, ?_, ?_, ?_⟩⟩
  · show Option.map views.view_obj_iota.mk (if N = 0 then none else some _) = _
    rw [if_neg (Nat.pos_iff_ne_zero.mp hN)]
    rfl
  · intro hT
    subst hT
    rfl
  · intro b hT
    subst hT
    rfl
  · intro b hT
    subst hT
    exact integral_cast_signed b I
  · exact integral_cast_eq_iff T I

/-- C25 on `iota<signed char, 200>()`: the element at index 150 is -106, and the element
at index 100 is 100. -/
theorem iota_cast_elements_witness :
    ∃ v, views.iota (integral.signed 8) 200 = some v ∧ size_of Unit v = 200
      ∧ (element (⟨150, by decide⟩ : Fin 200) v ()).1.value = -106
      ∧ (element (⟨100, by decide⟩ : Fin 200) v ()).1.value = 100 :=
  (iota_cast_elements (integral.signed 8) 200 (by decide)).imp
    (fun _ h => ⟨h.1, h.2.1, (h.2.2 ⟨150, by decide⟩).1.trans (by decide),
      (h.2.2 ⟨100, by decide⟩).2.2.2.2.mpr (by decide)⟩)

/-- The functor laws for closures that hold their functions (made from temporaries): for
a range `r`, pure functions `f` and `g` and an index `I`, element `I` of
`r | transform(f) | transform(g)` is element `I` of `r | transform(x -> g(f(x)))`, and
element `I` of `r | transform(identity)` is `element<I>(r)`. -/
theorem transform_functor_laws :
    (∀ (W R V : Type) (n : Nat) (Ts Us Vs : Fin n → Type) [range_traits W R n Ts]
        [range_traits W V n Ts] [views.has_all R V] [view_base V] [movable V] [all_proxies W R V]
        (f : fn Ts Us) (g : fn Us Vs) (r : R) (I : Fin n) (w : W),
        element I (views.pipe (views.pipe r (views.transform f)).view (views.transform g)).view w
          = element I
              (views.pipe r (views.transform (fn.mk (fun J (x : Ts J) => g.f J (f.f J x))))).view w)
    ∧ (∀ (W R V : Type) (n : Nat) (Ts : Fin n → Type) [range_traits W R n Ts]
        [range_traits W V n Ts] [views.has_all R V] [all_proxies W R V] (r : R) (I : Fin n)
        (w : W),
        element I (views.pipe r (views.transform (fn.mk (fun J (x : Ts J) => x)))).view w
          = element I r w) := by
  refine ⟨fun _ _ _ _ _ _ _ _ _ _ _ _ _ _ _ _ _ _ => rfl, ?_⟩
  intro W R V n Ts _ _ _ hp r I w
  have h : element I (views.all r : V) w = element I r w := congrFun (hp.get_all I r) w
  rw [← h]
  rfl

/-- The functor laws on the named pair `{"x", "y"}`: appending "1" and then "2" reads
"y12" at index 1, as appending "12" in one stage does, and the identity stage reads "y". -/
theorem transform_functor_laws_witness :
    (element 1
        (views.pipe (views.pipe sample.r (views.transform (sample.append "1"))).view
          (views.transform (sample.append "2"))).view sample.memory).1 = "y12"
      ∧ (element 1
          (views.pipe sample.r
            (views.transform (fn.mk (fun J (x : sample.strings J) => x)))).view
          sample.memory).1 = "y" := by
  refine ⟨?_, ?_⟩
  · rw [transform_functor_laws.1 (World (tuple 2 sample.strings) Unit)
      (lvalue (tuple 2 sample.strings)) (views.view_obj (tuple 2 sample.strings)) 2
      sample.strings sample.strings sample.strings (sample.append "1") (sample.append "2")
      sample.r 1 sample.memory]
    decide
  · rw [transform_functor_laws.2 (World (tuple 2 sample.strings) Unit)
      (lvalue (tuple 2 sample.strings)) (views.view_obj (tuple 2 sample.strings)) 2
      sample.strings sample.r 1 sample.memory]
    decide

/-- C1 at one named functor used for the three stages: `f` appends its captured "!" and
the chain is `r | transform(f) | transform(f) | transform(f)` over the pair `{"x", "y"}`.
Each closure refers to the caller's `f`, and the first application moves the function out
of it: the second and third stage are built from the emptied `f`, the chain reads "y!" at
index 1 and `f` is left with an empty string. With three temporaries that append "!" the
chain reads "y!!!", which is `f(f(f("y")))`. -/
theorem chain_of_one_named_functor :
    (element 1 (sample.three_named (sample.with_suffix.mk "!")).1 sample.memory).1 = "y!"
      ∧ (sample.three_named (sample.with_suffix.mk "!")).2.suffix = ""
      ∧ (element 1
          (views.pipe
            (views.pipe (views.pipe sample.r (views.transform (sample.with_suffix.mk "!"))).view
              (views.transform (sample.with_suffix.mk "!"))).view
            (views.transform (sample.with_suffix.mk "!"))).view sample.memory).1 = "y!!!" := by
  decide

/-- C27 at one named functor used as `f` and as `g`: it appends its captured "!". The
view `r | transform(f) | transform(g)` builds its second stage from the functor the
first application has emptied and reads "y!" at index 1, where the view
`r | transform(x -> g(f(x)))` reads "y!!". -/
theorem functor_law_one_named_functor :
    (element 1 (sample.two_named (sample.with_suffix.mk "!")).1 sample.memory).1 = "y!"
      ∧ (element 1
          (views.pipe sample.r
            (views.transform
              (composed.mk (sample.with_suffix.mk "!") (sample.with_suffix.mk "!")))).view
          sample.memory).1 = "y!!" := by
  decide

end static_ranges
